import Mathlib

/-!
# Verification of the KDRoll random-number manager

A shallow embedding, in Lean 4, of the core of the `justKD/KDRoll`
repository (files `src/module/KDRoll.js`, `src/module/deps/KDUniform.js`,
`src/module/deps/KDNumber.js`, `src/module/deps/KDHistory.js`,
`src/module/deps/KDGaussian.js`).

JavaScript numbers are IEEE-754 binary64 values; every finite binary64
value is a rational number, so the embedding represents numbers as `ℚ`
together with an explicit rounding function `rtd` ("round to double":
round to 53 significant bits, ties to even) that is applied wherever a
JavaScript arithmetic operation can actually round.  The model idealises
the exponent range as unbounded (no overflow to infinity, no subnormal
loss); every value manipulated in the theorems below lies far inside the
normal binary64 range, where this idealisation is exact.

The floating-point "fix" routine of the repository works on the host's
decimal string for a number.  The host string (ECMAScript
`Number::toString`, radix 10) is the shortest decimal numeral that
round-trips to the same binary64 value, laid out positionally when the
decimal exponent `n` satisfies `-6 < n ≤ 21` and exponentially otherwise.
The embedding computes that numeral (`shortestPos`, `posFormOf`) and
represents the string by its structure: its sign, digit lists and
exponent.  String operations of the source (`split('.')`, the regular
expression `(9{6,}|0{6,})(\d)*$`, `parseFloat`, `toFixed`) are modelled
on that structure.
-/

/- Concrete rational computations below are checked by `decide`; the
arithmetic of `Rat` must therefore be reducible for evaluation. -/
set_option allowUnsafeReducibility true
attribute [semireducible] Rat.add Rat.mul Rat.sub Rat.inv

namespace KDRoll

/-! ## Fuel-based discrete logarithm and digit extraction

`Nat.log`, `Int.log` and `Nat.digits` are defined by well-founded
recursion and do not reduce during kernel evaluation, so the embedding
uses structurally recursive versions (the fuel argument only bounds the
recursion depth; evaluation stops as soon as the base case is reached). -/

/-- `nlogF b fuel n`: largest `k` with `b ^ k ≤ n`, provided
`n < b ^ fuel`. -/
def nlogF (b : ℕ) : ℕ → ℕ → ℕ
  | 0, _ => 0
  | f + 1, n => if b ≤ n then nlogF b f (n / b) + 1 else 0

/-- `nlog b n`: largest `k` with `b ^ k ≤ n` (for `2 ≤ b`, `1 ≤ n`). -/
def nlog (b n : ℕ) : ℕ := nlogF b n n

theorem nlogF_spec {b : ℕ} (hb : 2 ≤ b) :
    ∀ {f n : ℕ}, 1 ≤ n → n < b ^ f →
      b ^ nlogF b f n ≤ n ∧ n < b ^ (nlogF b f n + 1) := by
  intro f
  induction f with
  | zero =>
    intro n hn hf
    simp at hf
    omega
  | succ f ih =>
    intro n hn hf
    by_cases hbn : b ≤ n
    · have hdiv1 : 1 ≤ n / b := (Nat.one_le_div_iff (by omega)).2 hbn
      have hdivf : n / b < b ^ f := by
        have hmul : n / b * b ≤ n := Nat.div_mul_le_self n b
        have : n / b * b < b ^ (f + 1) := lt_of_le_of_lt hmul hf
        have hbpos : 0 < b := by omega
        rw [pow_succ] at this
        exact lt_of_mul_lt_mul_right this (Nat.zero_le b)
      obtain ⟨h1, h2⟩ := ih hdiv1 hdivf
      constructor
      · simp only [nlogF, if_pos hbn]
        rw [pow_succ]
        calc b ^ nlogF b f (n / b) * b ≤ n / b * b := by
              exact Nat.mul_le_mul_right b h1
          _ ≤ n := Nat.div_mul_le_self n b
      · simp only [nlogF, if_pos hbn]
        have hlt : n < (n / b + 1) * b := by
          have := Nat.div_add_mod n b
          have hmod : n % b < b := Nat.mod_lt n (by omega)
          nlinarith [Nat.div_add_mod n b]
        calc n < (n / b + 1) * b := hlt
          _ ≤ b ^ (nlogF b f (n / b) + 1) * b := by
              exact Nat.mul_le_mul_right b h2
          _ = b ^ (nlogF b f (n / b) + 1 + 1) := by ring
    · simp only [nlogF, if_neg hbn]
      constructor
      · simpa using hn
      · simpa using by omega

theorem nlog_spec {b n : ℕ} (hb : 2 ≤ b) (hn : 1 ≤ n) :
    b ^ nlog b n ≤ n ∧ n < b ^ (nlog b n + 1) := by
  apply nlogF_spec hb hn
  calc n < 2 ^ n := Nat.lt_two_pow n
    _ ≤ b ^ n := Nat.pow_le_pow_left hb n

/-- Base-10 digits of `n`, least significant first (fuel-based version of
`Nat.digits 10`). -/
def digitsF : ℕ → ℕ → List ℕ
  | 0, _ => []
  | f + 1, n => if n = 0 then [] else n % 10 :: digitsF f (n / 10)

/-- Base-10 digits of `n`, least significant first. -/
def digitsL (n : ℕ) : List ℕ := digitsF n n

theorem digitsF_eq : ∀ {f n : ℕ}, n < 2 ^ f → digitsF f n = Nat.digits 10 n := by
  intro f
  induction f with
  | zero =>
    intro n hf
    simp at hf
    simp [hf, digitsF]
  | succ f ih =>
    intro n hf
    by_cases hn : n = 0
    · simp [hn, digitsF]
    · have hdivf : n / 10 < 2 ^ f := by
        have h2 : n < 2 ^ f * 2 := by
          rw [← pow_succ]
          exact hf
        omega
      simp only [digitsF, if_neg hn]
      rw [ih hdivf, ← Nat.digits_def' (by norm_num : 1 < 10) (Nat.pos_of_ne_zero hn)]

theorem digitsL_eq (n : ℕ) : digitsL n = Nat.digits 10 n :=
  digitsF_eq (Nat.lt_two_pow n)

/-- `flog b q`: the floor of the base-`b` logarithm of a positive
rational `q`, computed structurally from the numerator and denominator. -/
def flog (b : ℕ) (q : ℚ) : ℤ :=
  let a := q.num.toNat
  let d := q.den
  if d ≤ a then (nlog b (a / d) : ℤ)
  else
    let k0 := nlog b (d / a)
    if d ≤ a * b ^ k0 then -(k0 : ℤ) else -((k0 : ℤ) + 1)

theorem flog_spec {b : ℕ} {q : ℚ} (hb : 2 ≤ b) (hq : 0 < q) :
    (b : ℚ) ^ flog b q ≤ q ∧ q < (b : ℚ) ^ (flog b q + 1) := by
  have hnum : 0 < q.num := Rat.num_pos.2 hq
  have hden0 : 0 < q.den := q.pos
  obtain ⟨a, ha⟩ : ∃ a, q.num.toNat = a := ⟨_, rfl⟩
  obtain ⟨d, hd⟩ : ∃ d, q.den = d := ⟨_, rfl⟩
  have hden : 0 < d := hd ▸ hden0
  have ha1 : 1 ≤ a := by omega
  have hqad : q = (a : ℚ) / (d : ℚ) := by
    have hnd := Rat.num_div_den q
    rw [← hnd, hd]
    congr 1
    rw [← ha]
    exact_mod_cast (Int.toNat_of_nonneg hnum.le).symm
  have hdQ : (0 : ℚ) < (d : ℚ) := by exact_mod_cast hden
  have hbQ : (0 : ℚ) < (b : ℚ) := by
    have hb0 : (0 : ℕ) < b := by omega
    exact_mod_cast hb0
  by_cases hda : d ≤ a
  · -- q ≥ 1
    obtain ⟨k, hk⟩ : ∃ k, nlog b (a / d) = k := ⟨_, rfl⟩
    have hk1 : 1 ≤ a / d := (Nat.one_le_div_iff hden).2 hda
    obtain ⟨h1, h2⟩ := nlog_spec hb hk1
    rw [hk] at h1 h2
    have hflog : flog b q = (k : ℤ) := by
      simp only [flog, ha, hd, if_pos hda, hk]
    rw [hflog]
    constructor
    · have hcast1 : ((b ^ k : ℕ) : ℚ) ≤ ((a / d : ℕ) : ℚ) := by exact_mod_cast h1
      have hcast2 : ((a / d : ℕ) : ℚ) ≤ (a : ℚ) / (d : ℚ) := Nat.cast_div_le
      rw [hqad, zpow_natCast]
      calc (b : ℚ) ^ k = ((b ^ k : ℕ) : ℚ) := by push_cast; ring
        _ ≤ ((a / d : ℕ) : ℚ) := hcast1
        _ ≤ (a : ℚ) / (d : ℚ) := hcast2
    · have hstep : (a : ℚ) / (d : ℚ) < ((a / d : ℕ) : ℚ) + 1 := by
        rw [div_lt_iff hdQ]
        have hmod : a % d < d := Nat.mod_lt a hden
        have hsum : a = d * (a / d) + a % d := (Nat.div_add_mod a d).symm
        have hcast : (a : ℚ) = ((d * (a / d) : ℕ) : ℚ) + ((a % d : ℕ) : ℚ) := by
          exact_mod_cast hsum
        have hmQ : ((a % d : ℕ) : ℚ) < (d : ℚ) := by exact_mod_cast hmod
        rw [hcast]
        push_cast
        nlinarith
      have hsucc : ((a / d : ℕ) : ℚ) + 1 ≤ ((b ^ (k + 1) : ℕ) : ℚ) := by
        have hle : a / d + 1 ≤ b ^ (k + 1) := h2
        exact_mod_cast hle
      rw [hqad]
      calc (a : ℚ) / (d : ℚ) < ((a / d : ℕ) : ℚ) + 1 := hstep
        _ ≤ ((b ^ (k + 1) : ℕ) : ℚ) := hsucc
        _ = (b : ℚ) ^ ((k : ℤ) + 1) := by
            rw [show ((k : ℤ) + 1) = ((k + 1 : ℕ) : ℤ) by push_cast; ring,
              zpow_natCast]
            push_cast
            ring
  · -- q < 1
    push_neg at hda
    obtain ⟨k0, hk0⟩ : ∃ k0, nlog b (d / a) = k0 := ⟨_, rfl⟩
    have hm1 : 1 ≤ d / a := (Nat.one_le_div_iff (by omega)).2 hda.le
    obtain ⟨hm_low, hm_high⟩ := nlog_spec hb hm1
    rw [hk0] at hm_low hm_high
    -- (A): d ≤ a * b ^ kk;  (B): a * b ^ kk < d * b
    have hAk0 : a * b ^ k0 ≤ d := by
      calc a * b ^ k0 ≤ a * (d / a) := Nat.mul_le_mul_left a hm_low
        _ ≤ d := Nat.mul_div_le d a
    have hBsucc : d < a * b ^ (k0 + 1) := by
      have hmod : d % a < a := Nat.mod_lt d (by omega)
      have hsum : d = a * (d / a) + d % a := (Nat.div_add_mod d a).symm
      have h2' : d / a + 1 ≤ b ^ (k0 + 1) := hm_high
      nlinarith
    by_cases hcond : d ≤ a * b ^ k0
    · -- kk = k0
      have hflog : flog b q = -(k0 : ℤ) := by
        simp only [flog, ha, hd, if_neg (not_le.2 hda), hk0, if_pos hcond]
      have hB : a * b ^ k0 < d * b := by
        calc a * b ^ k0 ≤ d := hAk0
          _ < d * b := by nlinarith
      rw [hflog, hqad]
      have hbkQ : (0 : ℚ) < (b : ℚ) ^ (k0 : ℕ) := by positivity
      constructor
      · rw [zpow_neg, zpow_natCast, inv_le_iff_one_le_mul₀ hbkQ]
        rw [div_mul_eq_mul_div, le_div_iff hdQ]
        have hc : ((d : ℕ) : ℚ) ≤ ((a * b ^ k0 : ℕ) : ℚ) := by exact_mod_cast hcond
        push_cast at hc ⊢
        linarith
      · have hexp : -(k0 : ℤ) + 1 = 1 - (k0 : ℤ) := by ring
        rw [hexp, zpow_sub₀ (ne_of_gt hbQ), zpow_one, zpow_natCast]
        rw [div_lt_div_iff hdQ hbkQ]
        have hc : ((a * b ^ k0 : ℕ) : ℚ) < ((d * b : ℕ) : ℚ) := by exact_mod_cast hB
        push_cast at hc ⊢
        linarith
    · -- kk = k0 + 1
      have hflog : flog b q = -((k0 : ℤ) + 1) := by
        simp only [flog, ha, hd, if_neg (not_le.2 hda), hk0, if_neg hcond]
      push_neg at hcond
      have hB : a * b ^ (k0 + 1) < d * b := by
        calc a * b ^ (k0 + 1) = a * b ^ k0 * b := by ring
          _ < d * b := by
              apply Nat.mul_lt_mul_of_lt_of_le hcond (le_refl b)
              omega
      rw [hflog, hqad]
      have hbkQ : (0 : ℚ) < (b : ℚ) ^ (k0 + 1 : ℕ) := by positivity
      have hcast_exp : -((k0 : ℤ) + 1) = -(((k0 + 1 : ℕ)) : ℤ) := by push_cast; ring
      constructor
      · rw [hcast_exp, zpow_neg, zpow_natCast, inv_le_iff_one_le_mul₀ hbkQ]
        rw [div_mul_eq_mul_div, le_div_iff hdQ]
        have hc : ((d : ℕ) : ℚ) ≤ ((a * b ^ (k0 + 1) : ℕ) : ℚ) := by
          exact_mod_cast hBsucc.le
        push_cast at hc ⊢
        linarith
      · have hexp : -((k0 : ℤ) + 1) + 1 = 1 - (((k0 + 1 : ℕ)) : ℤ) := by push_cast; ring
        rw [hexp, zpow_sub₀ (ne_of_gt hbQ), zpow_one, zpow_natCast]
        rw [div_lt_div_iff hdQ hbkQ]
        have hc : ((a * b ^ (k0 + 1) : ℕ) : ℚ) < ((d * b : ℕ) : ℚ) := by
          exact_mod_cast hB
        push_cast at hc ⊢
        linarith

/-! ## The binary64 value model -/

/-- Round a rational to the nearest integer, ties to even
(IEEE-754 default rounding, used when a JS arithmetic result must be
rounded to a representable value). -/
def rhe (q : ℚ) : ℤ :=
  let f := ⌊q⌋
  let r := q - f
  if r < 1/2 then f
  else if 1/2 < r then f + 1
  else if f % 2 = 0 then f else f + 1

/-- Round a rational to the nearest integer, ties toward `+∞`
(the rounding used by ECMAScript `Number.prototype.toFixed` and
`Math.round`: of two equally near integers, the larger is taken). -/
def rtu (q : ℚ) : ℤ := ⌊q + 1/2⌋

/-- `rtd q` ("round to double") is the binary64 value nearest to `q`:
the significand is rounded to 53 bits, ties to even.  The exponent range
is idealised as unbounded. -/
def rtd (q : ℚ) : ℚ :=
  if q = 0 then 0
  else
    let x := |q|
    let e : ℤ := flog 2 x
    let m : ℤ := rhe (x * (2 : ℚ) ^ ((52 : ℤ) - e))
    (if q < 0 then (-1 : ℚ) else 1) * m * (2 : ℚ) ^ (e - 52)

theorem rhe_intCast (z : ℤ) : rhe (z : ℚ) = z := by
  unfold rhe
  norm_num

theorem rhe_nonneg {q : ℚ} (h : 0 ≤ q) : 0 ≤ rhe q := by
  unfold rhe
  have h0 : (0 : ℤ) ≤ ⌊q⌋ := Int.floor_nonneg.2 h
  dsimp only
  split
  · exact h0
  · split
    · omega
    · split <;> omega

theorem rhe_le_of_lt {q : ℚ} {B : ℤ} (h : q < B) : rhe q ≤ B := by
  unfold rhe
  have h1 : ⌊q⌋ ≤ B - 1 := by
    have hlt : ⌊q⌋ < B := Int.floor_lt.2 (by exact_mod_cast h)
    omega
  dsimp only
  split
  · omega
  · split
    · omega
    · split <;> omega

theorem rhe_ge_floor (q : ℚ) : ⌊q⌋ ≤ rhe q := by
  unfold rhe
  dsimp only
  split
  · omega
  · split
    · omega
    · split <;> omega

theorem rtu_nonneg {q : ℚ} (h : 0 ≤ q) : 0 ≤ rtu q := by
  unfold rtu
  have : (0 : ℚ) ≤ q + 1/2 := by linarith
  exact Int.floor_nonneg.2 this

theorem rtu_le {q : ℚ} {B : ℤ} (h : q ≤ B) : rtu q ≤ B := by
  unfold rtu
  have : q + 1/2 < (B : ℚ) + 1 := by linarith
  have := Int.floor_lt.2 (by exact_mod_cast this : q + 1/2 < ((B + 1 : ℤ) : ℚ))
  omega

theorem rtd_nonneg {q : ℚ} (h : 0 ≤ q) : 0 ≤ rtd q := by
  unfold rtd
  split
  · norm_num
  · rename_i hq
    have hpos : 0 < q := lt_of_le_of_ne h (Ne.symm hq)
    have habs : |q| = q := abs_of_pos hpos
    have hnneg : ¬ q < 0 := not_lt.2 h
    simp only [habs, hnneg, if_false]
    have hm : 0 ≤ rhe (q * (2 : ℚ) ^ ((52 : ℤ) - flog 2 q)) := by
      apply rhe_nonneg
      positivity
    have hz : (0 : ℚ) ≤ (2 : ℚ) ^ ((flog 2 q) - 52) := by positivity
    have : (0 : ℚ) ≤ (rhe (q * (2 : ℚ) ^ ((52 : ℤ) - flog 2 q)) : ℚ) := by
      exact_mod_cast hm
    nlinarith

/-- If `0 ≤ q ≤ 2 ^ k` then rounding to a double cannot overshoot `2 ^ k`. -/
theorem rtd_le_zpow {q : ℚ} {k : ℤ} (h0 : 0 ≤ q) (h : q ≤ (2 : ℚ) ^ k) :
    rtd q ≤ (2 : ℚ) ^ k := by
  unfold rtd
  split
  · positivity
  · rename_i hq
    have hpos : 0 < q := lt_of_le_of_ne h0 (Ne.symm hq)
    have habs : |q| = q := abs_of_pos hpos
    have hnneg : ¬ q < 0 := not_lt.2 h0
    simp only [habs, hnneg, if_false]
    obtain ⟨hlow, hhigh⟩ := flog_spec (le_refl 2) hpos
    push_cast at hlow hhigh
    rcases eq_or_lt_of_le h with heq | hlt
    · -- q = 2 ^ k exactly: the rounding is exact.
      have hek : flog 2 q = k := by
        have h1 : flog 2 q ≤ k := by
          by_contra hc
          push_neg at hc
          have : (2 : ℚ) ^ (k + 1) ≤ (2 : ℚ) ^ (flog 2 q) := by
            apply zpow_le_zpow_right₀ (by norm_num : (1 : ℚ) ≤ 2)
            omega
          have h2k : q < (2 : ℚ) ^ (k + 1) := by
            rw [heq]
            apply zpow_lt_zpow_right₀ (by norm_num : (1 : ℚ) < 2)
            omega
          linarith
        have h2 : k ≤ flog 2 q := by
          by_contra hc
          push_neg at hc
          have : (2 : ℚ) ^ (flog 2 q + 1) ≤ (2 : ℚ) ^ k := by
            apply zpow_le_zpow_right₀ (by norm_num : (1 : ℚ) ≤ 2)
            omega
          rw [← heq] at this
          linarith
        omega
      rw [hek, heq]
      have hx : (2 : ℚ) ^ k * (2 : ℚ) ^ ((52 : ℤ) - k) = (2 : ℚ) ^ (52 : ℤ) := by
        rw [← zpow_add₀ (by norm_num : (2 : ℚ) ≠ 0)]
        congr 1
        omega
      rw [hx]
      have h52 : ((2 : ℚ) ^ (52 : ℤ)) = ((2 ^ 52 : ℤ) : ℚ) := by norm_num
      rw [h52, rhe_intCast]
      have : ((2 ^ 52 : ℤ) : ℚ) * (2 : ℚ) ^ (k - 52) = (2 : ℚ) ^ k := by
        rw [← h52, ← zpow_add₀ (by norm_num : (2 : ℚ) ≠ 0)]
        congr 1
        omega
      rw [one_mul, this]
    · -- q < 2 ^ k: the exponent is at most k - 1, so the result is ≤ 2 ^ k.
      set e : ℤ := flog 2 q with he
      have helt : e < k := by
        by_contra hc
        push_neg at hc
        have : (2 : ℚ) ^ k ≤ (2 : ℚ) ^ e :=
          zpow_le_zpow_right₀ (by norm_num : (1 : ℚ) ≤ 2) hc
        linarith
      have hxlt : q * (2 : ℚ) ^ ((52 : ℤ) - e) < (2 : ℚ) ^ (53 : ℤ) := by
        have hp : (0 : ℚ) < (2 : ℚ) ^ ((52 : ℤ) - e) := by positivity
        calc q * (2 : ℚ) ^ ((52 : ℤ) - e)
            < (2 : ℚ) ^ (e + 1) * (2 : ℚ) ^ ((52 : ℤ) - e) := by
              exact mul_lt_mul_of_pos_right hhigh hp
          _ = (2 : ℚ) ^ (53 : ℤ) := by
              rw [← zpow_add₀ (by norm_num : (2 : ℚ) ≠ 0)]
              congr 1
              omega
      have hm : rhe (q * (2 : ℚ) ^ ((52 : ℤ) - e)) ≤ 2 ^ 53 := by
        apply rhe_le_of_lt
        calc q * (2 : ℚ) ^ ((52 : ℤ) - e) < (2 : ℚ) ^ (53 : ℤ) := hxlt
          _ = ((2 ^ 53 : ℤ) : ℚ) := by norm_num
      have hm0 : 0 ≤ rhe (q * (2 : ℚ) ^ ((52 : ℤ) - e)) := by
        apply rhe_nonneg
        positivity
      have hz : (0 : ℚ) < (2 : ℚ) ^ (e - 52) := by positivity
      calc (1 : ℚ) * (rhe (q * (2 : ℚ) ^ ((52 : ℤ) - e)) : ℚ) * (2 : ℚ) ^ (e - 52)
          ≤ ((2 ^ 53 : ℤ) : ℚ) * (2 : ℚ) ^ (e - 52) := by
            rw [one_mul]
            apply mul_le_mul_of_nonneg_right _ hz.le
            exact_mod_cast hm
        _ = (2 : ℚ) ^ (e + 1) := by
            rw [show (((2 ^ 53 : ℤ)) : ℚ) = (2 : ℚ) ^ ((53 : ℤ)) by norm_num,
              ← zpow_add₀ (by norm_num : (2 : ℚ) ≠ 0)]
            congr 1
            omega
        _ ≤ (2 : ℚ) ^ k := by
            apply zpow_le_zpow_right₀ (by norm_num : (1 : ℚ) ≤ 2)
            omega

/-- Naturals below `2 ^ 53` are exactly representable: `rtd` is the
identity on them. -/
theorem rtd_natCast_eq {n : ℕ} (h : n < 2 ^ 53) : rtd (n : ℚ) = n := by
  unfold rtd
  split
  · rename_i h0
    exact_mod_cast h0.symm
  · rename_i h0
    have hn : 0 < n := by
      by_contra hc
      exact h0 (by simp [Nat.le_zero.1 (not_lt.1 hc)])
    have hpos : (0 : ℚ) < (n : ℚ) := by exact_mod_cast hn
    have habs : |(n : ℚ)| = (n : ℚ) := abs_of_pos hpos
    have hnneg : ¬ (n : ℚ) < 0 := not_lt.2 hpos.le
    simp only [habs, hnneg, if_false]
    set e : ℤ := flog 2 (n : ℚ) with he
    obtain ⟨hlow, hhigh⟩ := flog_spec (le_refl 2) hpos
    push_cast at hlow hhigh
    have he0 : 0 ≤ e := by
      by_contra hc
      push_neg at hc
      have h1 : (2 : ℚ) ^ (e + 1) ≤ (2 : ℚ) ^ (0 : ℤ) := by
        apply zpow_le_zpow_right₀ (by norm_num : (1 : ℚ) ≤ 2)
        omega
      have h2 : (1 : ℚ) ≤ (n : ℚ) := by exact_mod_cast hn
      rw [zpow_zero] at h1
      linarith
    have helt : e < 53 := by
      by_contra hc
      push_neg at hc
      have h1 : (2 : ℚ) ^ (53 : ℤ) ≤ (2 : ℚ) ^ e :=
        zpow_le_zpow_right₀ (by norm_num : (1 : ℚ) ≤ 2) hc
      have h2 : (n : ℚ) < (2 : ℚ) ^ (53 : ℤ) := by
        have : (n : ℚ) < ((2 ^ 53 : ℕ) : ℚ) := by exact_mod_cast h
        rw [show (((2 ^ 53 : ℕ)) : ℚ) = (2 : ℚ) ^ (53 : ℤ) by norm_num] at this
        exact this
      linarith
    obtain ⟨t, ht⟩ : ∃ t : ℕ, (t : ℤ) = 52 - e := ⟨(52 - e).toNat, by omega⟩
    have hz : (2 : ℚ) ^ ((52 : ℤ) - e) = (2 : ℚ) ^ (t : ℕ) := by
      rw [← ht, zpow_natCast]
    have hx : (n : ℚ) * (2 : ℚ) ^ ((52 : ℤ) - e)
        = (((n * 2 ^ t : ℕ) : ℤ) : ℚ) := by
      rw [hz]
      push_cast
      ring
    rw [hx, rhe_intCast]
    have hsplit : ((((n * 2 ^ t : ℕ) : ℤ)) : ℚ) = (n : ℚ) * (2 : ℚ) ^ (t : ℕ) := by
      push_cast
      ring
    rw [hsplit, one_mul, mul_assoc]
    have hone : (2 : ℚ) ^ (t : ℕ) * (2 : ℚ) ^ (e - 52) = 1 := by
      rw [← zpow_natCast (2 : ℚ) t, ← zpow_add₀ (by norm_num : (2 : ℚ) ≠ 0)]
      have hzero : (t : ℤ) + (e - 52) = 0 := by omega
      rw [hzero, zpow_zero]
    rw [hone, mul_one]

/-! ## Shortest round-tripping decimal numerals

`Number::toString` (radix 10) prints the decimal numeral with the fewest
significant digits that still parses back to the same binary64 value,
choosing among numerals of that length one nearest to the value.  The
search below tries `d = 1, 2, …` significant digits; the `d`-digit
candidate is the nearest `d`-digit numeral (`rhe` of the scaled value),
and it is accepted when it rounds back (`rtd`) to the same double. -/

/-- Value of a most-significant-first digit list. -/
def digitsVal (l : List ℕ) : ℕ := l.foldl (fun a d => a * 10 + d) 0

/-- The `d`-significant-digit candidate numeral for `q` (an integer;
the numeral's value is `spCand · 10 ^ (e10 - d)`). -/
def spCand (q : ℚ) (e10 : ℤ) (d : ℕ) : ℤ := rhe (q * (10 : ℚ) ^ ((d : ℤ) - e10))

/-- Whether the `d`-digit candidate parses back to the same double as `q`. -/
def spOk (q : ℚ) (e10 : ℤ) (d : ℕ) : Bool :=
  rtd ((spCand q e10 d : ℚ) * (10 : ℚ) ^ (e10 - (d : ℤ))) == rtd q

/-- Digits (most significant first) and decimal exponent of the accepted
candidate, after stripping trailing zeros of the numeral. -/
def spOut (n : ℤ) (e10 : ℤ) (d : ℕ) : List ℕ × ℤ :=
  let l := digitsL n.toNat
  let z := (l.takeWhile (fun x => x == 0)).length
  let ds := (l.drop z).reverse
  (ds, e10 - (d : ℤ) + (z : ℤ) + (ds.length : ℤ))

def spLoop (q : ℚ) (e10 : ℤ) : ℕ → ℕ → Option (List ℕ × ℤ)
  | 0, _ => none
  | fuel + 1, d =>
    if spOk q e10 d then some (spOut (spCand q e10 d) e10 d)
    else spLoop q e10 fuel (d + 1)

/-- Digits (most significant first, no trailing zeros) and decimal
exponent of the shortest decimal numeral that rounds to the same double
as the positive rational `q`.  Any actual binary64 value is identified
by at most 17 significant digits, so the search depth 25 never runs out
for values a double can take; on other rationals the search may return
`none`, in which case the consumers below leave the value untouched. -/
def shortestPos (q : ℚ) : Option (List ℕ × ℤ) :=
  spLoop q (flog 10 q + 1) 25 1

theorem spLoop_spec {q : ℚ} {e10 : ℤ} :
    ∀ {fuel d0 : ℕ} {r : List ℕ × ℤ}, spLoop q e10 fuel d0 = some r →
      ∃ d, d0 ≤ d ∧ d < d0 + fuel ∧ spOk q e10 d = true ∧
        r = spOut (spCand q e10 d) e10 d ∧
        ∀ d', d0 ≤ d' → d' < d → spOk q e10 d' = false := by
  intro fuel
  induction fuel with
  | zero =>
    intro d0 r h
    simp [spLoop] at h
  | succ fuel ih =>
    intro d0 r h
    rw [spLoop] at h
    by_cases hok : spOk q e10 d0 = true
    · rw [if_pos hok] at h
      refine ⟨d0, le_refl _, by omega, hok, (Option.some.inj h).symm, ?_⟩
      intro d' h1 h2
      omega
    · rw [if_neg hok] at h
      obtain ⟨d, hd1, hd2, hd3, hd4, hd5⟩ := ih h
      refine ⟨d, by omega, by omega, hd3, hd4, ?_⟩
      intro d' h1 h2
      by_cases hdd : d' = d0
      · subst hdd
        exact Bool.not_eq_true _ ▸ (by simpa using hok)
      · exact hd5 d' (by omega) h2

theorem spLoop_isSome {q : ℚ} {e10 : ℤ} {dS : ℕ} (hS : spOk q e10 dS = true) :
    ∀ {fuel d0 : ℕ}, d0 ≤ dS → dS < d0 + fuel →
      ∃ r, spLoop q e10 fuel d0 = some r := by
  intro fuel
  induction fuel with
  | zero =>
    intro d0 h1 h2
    omega
  | succ fuel ih =>
    intro d0 h1 h2
    rw [spLoop]
    by_cases hok : spOk q e10 d0 = true
    · exact ⟨_, by rw [if_pos hok]⟩
    · have hne : d0 ≠ dS := fun h => hok (h ▸ hS)
      rw [if_neg hok]
      exact ih (by omega) (by omega)

theorem spOut_fst_lt {n e10 : ℤ} {d : ℕ} :
    ∀ x ∈ (spOut n e10 d).1, x < 10 := by
  intro x hx
  unfold spOut at hx
  simp only [List.mem_reverse] at hx
  have hmem : x ∈ digitsL n.toNat := List.mem_of_mem_drop hx
  rw [digitsL_eq] at hmem
  exact Nat.digits_lt_base (by norm_num) hmem

theorem length_takeWhile_le (p : ℕ → Bool) :
    ∀ l : List ℕ, (l.takeWhile p).length ≤ l.length := by
  intro l
  induction l with
  | nil => simp
  | cons x t ih =>
    rw [List.takeWhile_cons]
    split
    · simpa using ih
    · simp

theorem spOut_snd_eq (n e10 : ℤ) (d : ℕ) :
    (spOut n e10 d).2 = e10 - (d : ℤ) + ((Nat.digits 10 n.toNat).length : ℤ) := by
  unfold spOut
  dsimp only
  rw [List.length_reverse, List.length_drop, digitsL_eq]
  have hle : (((Nat.digits 10 n.toNat).takeWhile (fun x => x == 0)).length)
      ≤ (Nat.digits 10 n.toNat).length := length_takeWhile_le _ _
  push_cast [Nat.cast_sub hle]
  ring

theorem digits_ten_pow (d : ℕ) :
    Nat.digits 10 (10 ^ d) = List.replicate d 0 ++ [1] := by
  induction d with
  | zero => simp
  | succ d ih =>
    rw [Nat.digits_def' (by norm_num : 1 < 10) (by positivity)]
    have h1 : 10 ^ (d + 1) % 10 = 0 := by
      rw [pow_succ]
      simp [Nat.mul_mod]
    have h2 : 10 ^ (d + 1) / 10 = 10 ^ d := by
      rw [pow_succ]
      exact Nat.mul_div_cancel _ (by norm_num)
    rw [h1, h2, ih]
    rfl

theorem takeWhile_replicate_append :
    ∀ d : ℕ, ((List.replicate d 0 ++ [1]).takeWhile (fun x => x == 0))
      = List.replicate d 0 := by
  intro d
  induction d with
  | zero => rfl
  | succ d ih =>
    simp [List.replicate_succ, List.takeWhile_cons, ih]

/-- Shape of an accepted candidate whose numeral does not exceed
`10 ^ d`: either the decimal exponent stays at most `e10`, or the
candidate rounded all the way up to `10 ^ d` and the output is the
single digit `1` with exponent `e10 + 1`. -/
theorem spOut_cases {n e10 : ℤ} {d : ℕ} (hn : n.toNat ≤ 10 ^ d) :
    (spOut n e10 d).2 ≤ e10 ∨
    ((spOut n e10 d).1 = [1] ∧ (spOut n e10 d).2 = e10 + 1) := by
  by_cases hlen : (Nat.digits 10 n.toNat).length ≤ d
  · left
    rw [spOut_snd_eq]
    omega
  · right
    push_neg at hlen
    have hne : n.toNat ≠ 0 := by
      intro h0
      rw [h0] at hlen
      simp at hlen
    have hlow : 10 ^ (Nat.digits 10 n.toNat).length ≤ 10 * n.toNat :=
      Nat.base_pow_length_digits_le 10 n.toNat (by norm_num) hne
    have hup : (Nat.digits 10 n.toNat).length = d + 1 := by
      by_contra hc
      have hge : d + 2 ≤ (Nat.digits 10 n.toNat).length := by omega
      have h1 : 10 ^ (d + 2) ≤ 10 * n.toNat :=
        le_trans (Nat.pow_le_pow_right (by norm_num) hge) hlow
      have h2 : 10 ^ (d + 2) = 10 ^ (d + 1) * 10 := by ring
      have h3 : 10 ^ (d + 1) = 10 ^ d * 10 := by ring
      have h4 : 0 < 10 ^ d := by positivity
      omega
    have heq : n.toNat = 10 ^ d := by
      have h1 : 10 ^ (d + 1) ≤ 10 * n.toNat := hup ▸ hlow
      have h3 : 10 ^ (d + 1) = 10 ^ d * 10 := by ring
      omega
    have hds : Nat.digits 10 n.toNat = List.replicate d 0 ++ [1] := by
      rw [heq, digits_ten_pow]
    constructor
    · unfold spOut
      dsimp only
      rw [digitsL_eq, hds, takeWhile_replicate_append]
      simp
    · rw [spOut_snd_eq, hds]
      simp
      omega

/-! ## The structural model of the host's decimal string -/

/-- Structure of the ECMAScript radix-10 string of a (positive) number:
`intF ds z` is the integer layout (digits then `z` zeros, no decimal
point), `decF ip fp` the positional layout `ip.fp`, and `expF ds ex`
the exponential layout `d.dddde±ex`. -/
inductive PForm where
  | intF (ds : List ℕ) (z : ℕ)
  | decF (ip fp : List ℕ)
  | expF (ds : List ℕ) (ex : ℤ)
deriving DecidableEq

/-- Layout rules of `Number::toString` (radix 10) for a positive value,
driven by the number of digits and the decimal exponent `n`:
integer layout for `k ≤ n ≤ 21`, positional with fraction for
`0 < n ≤ 21`, `0.0…0ddd` for `-6 < n ≤ 0`, exponential otherwise. -/
def formAssemble (p : List ℕ × ℤ) : PForm :=
  let ds := p.1
  let n := p.2
  if (ds.length : ℤ) ≤ n ∧ n ≤ 21 then .intF ds (n - ds.length).toNat
  else if 0 < n ∧ n ≤ 21 then .decF (ds.take n.toNat) (ds.drop n.toNat)
  else if -6 < n ∧ n ≤ 0 then .decF [0] (List.replicate (-n).toNat 0 ++ ds)
  else .expF ds (n - 1)

/-- Structure of the host's string for a positive value. -/
def posFormOf (q : ℚ) : Option PForm := (shortestPos q).map formAssemble

/-- Exact value of the positional string `ip.fp`. -/
def decValPos (ip fp : List ℕ) : ℚ :=
  (digitsVal ip : ℚ) + (digitsVal fp : ℚ) / (10 : ℚ) ^ fp.length

/-- Index of the leftmost run of at least six consecutive `9`s or six
consecutive `0`s in the fractional digit list: the start of the match of
the regular expression `(9{6,}|0{6,})(\d)*$` on an all-digit string, if
any (in an all-digit string the trailing `(\d)*$` always reaches the end
of the string, so the expression matches exactly when such a run
exists, and the leftmost match starts at the leftmost run). -/
def fracRunIdx : List ℕ → Option ℕ
  | [] => none
  | x :: t =>
    if (x :: t).take 6 = List.replicate 6 9 ∨ (x :: t).take 6 = List.replicate 6 0
    then some 0
    else (fracRunIdx t).map (· + 1)

/-- Exact value of `x.toFixed(L)` (ECMAScript: the integer numerator is
the one nearest to `x · 10 ^ L`, ties resolved to the larger). -/
def tfv (x : ℚ) (L : ℕ) : ℚ := ((rtu (x * (10 : ℚ) ^ L) : ℤ) : ℚ) / (10 : ℚ) ^ L

/-- The floating-point "fix" routine shared by `KDNumber.floatingPointFix`
and the private `fix` of `KDUniform.random` (`repeat` left at its default
6).  On the host it: returns falsy values unchanged; splits the string of
the value at `'.'` and returns the value if there is no fractional part
(integer and exponential layouts — in the exponential layout the
`(9{6,}|0{6,})(\d)*$` expression cannot match across the exponent
marker, so those values also come back unchanged); otherwise looks for
the leftmost six-long run of `9`s or `0`s in the fractional digits,
re-parses the assembled string (`parseFloat`, which rounds the exact
decimal value to a double) and rounds it to `runIndex` digits with
`toFixed`, parsing the result again. -/
def fixQ (q : ℚ) : ℚ :=
  if q = 0 then q
  else
    match posFormOf |q| with
    | some (PForm.decF ip fp) =>
      match fracRunIdx fp with
      | some L =>
        let fixed := rtd (if q < 0 then -decValPos ip fp else decValPos ip fp)
        rtd (tfv fixed L)
      | none => q
    | _ => q

/-! ## Bounds for the fix routine -/

theorem digitsVal_aux :
    ∀ (l : List ℕ) (a : ℕ), (∀ x ∈ l, x < 10) →
      List.foldl (fun a d => a * 10 + d) a l < (a + 1) * 10 ^ l.length := by
  intro l
  induction l with
  | nil =>
    intro a _
    simp
  | cons x t ih =>
    intro a hx
    have hx10 : x < 10 := hx x (List.mem_cons_self x t)
    have ht : ∀ y ∈ t, y < 10 := fun y hy => hx y (List.mem_cons_of_mem x hy)
    have hstep := ih (a * 10 + x) ht
    calc List.foldl (fun a d => a * 10 + d) (a * 10 + x) t
        < (a * 10 + x + 1) * 10 ^ t.length := hstep
      _ ≤ (a + 1) * 10 ^ (t.length + 1) := by
          have h1 : a * 10 + x + 1 ≤ (a + 1) * 10 := by omega
          calc (a * 10 + x + 1) * 10 ^ t.length
              ≤ (a + 1) * 10 * 10 ^ t.length := Nat.mul_le_mul_right _ h1
            _ = (a + 1) * 10 ^ (t.length + 1) := by ring

theorem digitsVal_lt {l : List ℕ} (h : ∀ x ∈ l, x < 10) :
    digitsVal l < 10 ^ l.length := by
  have := digitsVal_aux l 0 h
  simpa [digitsVal] using this

theorem decValPos_nonneg (ip fp : List ℕ) : 0 ≤ decValPos ip fp := by
  unfold decValPos
  positivity

theorem decValPos_le_one {fp : List ℕ} (h : ∀ x ∈ fp, x < 10) :
    decValPos [0] fp ≤ 1 := by
  unfold decValPos
  have h0 : digitsVal [0] = 0 := rfl
  rw [h0]
  have hlt : digitsVal fp < 10 ^ fp.length := digitsVal_lt h
  have hp : (0 : ℚ) < (10 : ℚ) ^ fp.length := by positivity
  rw [Nat.cast_zero, zero_add, div_le_one hp]
  have : ((digitsVal fp : ℕ) : ℚ) < ((10 ^ fp.length : ℕ) : ℚ) := by exact_mod_cast hlt
  push_cast at this
  linarith

/-- If `m < 10 ^ t` then `m` has at most `t` decimal digits. -/
theorem digitsLen_le {m t : ℕ} (h : m < 10 ^ t) :
    (Nat.digits 10 m).length ≤ t := by
  by_contra hc
  push_neg at hc
  have hne : m ≠ 0 := by
    intro h0
    rw [h0] at hc
    simp at hc
  have hlow : 10 ^ (Nat.digits 10 m).length ≤ 10 * m :=
    Nat.base_pow_length_digits_le 10 m (by norm_num) hne
  have h1 : 10 ^ (t + 1) ≤ 10 ^ (Nat.digits 10 m).length :=
    Nat.pow_le_pow_right (by norm_num) (by omega)
  have h2 : 10 ^ (t + 1) = 10 ^ t * 10 := by ring
  omega

theorem spOut_fst_length_le (n e10 : ℤ) (d : ℕ) :
    (spOut n e10 d).1.length ≤ (Nat.digits 10 n.toNat).length := by
  unfold spOut
  dsimp only
  rw [List.length_reverse, List.length_drop, digitsL_eq]
  omega

/-- The accepted candidate of the search is bounded by `10 ^ d`. -/
theorem spCand_le {q : ℚ} {d : ℕ} (hq : 0 < q) :
    spCand q (flog 10 q + 1) d ≤ 10 ^ d := by
  unfold spCand
  obtain ⟨hlow, hhigh⟩ := flog_spec (by norm_num : 2 ≤ 10) hq
  push_cast at hlow hhigh
  apply rhe_le_of_lt
  have hp : (0 : ℚ) < (10 : ℚ) ^ ((d : ℤ) - (flog 10 q + 1)) := by positivity
  calc q * (10 : ℚ) ^ ((d : ℤ) - (flog 10 q + 1))
      < (10 : ℚ) ^ (flog 10 q + 1) * (10 : ℚ) ^ ((d : ℤ) - (flog 10 q + 1)) :=
        mul_lt_mul_of_pos_right hhigh hp
    _ = (10 : ℚ) ^ ((d : ℤ)) := by
        rw [← zpow_add₀ (by norm_num : (10 : ℚ) ≠ 0)]
        congr 1
        omega
    _ = (((10 ^ d : ℤ)) : ℚ) := by
        rw [zpow_natCast]
        push_cast
        ring

theorem spCand_toNat_le {q : ℚ} {d : ℕ} (hq : 0 < q) :
    (spCand q (flog 10 q + 1) d).toNat ≤ 10 ^ d := by
  rw [Int.toNat_le]
  calc spCand q (flog 10 q + 1) d ≤ 10 ^ d := spCand_le hq
    _ ≤ ((10 ^ d : ℕ) : ℤ) := by push_cast; norm_num

/-- For `0 < q < 1`, a positional-with-fraction layout can only be the
`0.0…0ddd` one: its integer part is the single digit `0` and its
fractional digits are decimal digits. -/
theorem shortestPos_eq (q : ℚ) : shortestPos q = spLoop q (flog 10 q + 1) 25 1 := rfl

theorem posFormOf_decF_lt_one {q : ℚ} (h0 : 0 < q) (h1 : q < 1)
    {ip fp : List ℕ} (h : posFormOf q = some (PForm.decF ip fp)) :
    ip = [0] ∧ ∀ x ∈ fp, x < 10 := by
  have he10 : flog 10 q + 1 ≤ 0 := by
    obtain ⟨hlow, _⟩ := flog_spec (by norm_num : 2 ≤ 10) h0
    push_cast at hlow
    by_contra hc
    push_neg at hc
    have hge : (0 : ℤ) ≤ flog 10 q := by omega
    have : (1 : ℚ) ≤ (10 : ℚ) ^ (flog 10 q) := one_le_zpow₀ (by norm_num) hge
    linarith
  rcases hsp : shortestPos q with _ | r
  · rw [posFormOf, hsp] at h
    simp at h
  · obtain ⟨ds, n⟩ := r
    have hsp' := hsp
    rw [shortestPos_eq] at hsp'
    obtain ⟨d, hd1, hd2, _, hr, _⟩ := spLoop_spec hsp'
    have hcand : (spCand q (flog 10 q + 1) d).toNat ≤ 10 ^ d := spCand_toNat_le h0
    have hcases := @spOut_cases (spCand q (flog 10 q + 1) d)
      (flog 10 q + 1) d hcand
    rw [← hr] at hcases
    rw [posFormOf, hsp, Option.map_some'] at h
    have hform : formAssemble (ds, n) = PForm.decF ip fp := Option.some.inj h
    rw [formAssemble] at hform
    dsimp only at hform
    split_ifs at hform with hif1 hif2 hif3
    · -- `0 < n ≤ 21` with `n < ds.length`: impossible below 1.
      exfalso
      obtain ⟨hn0, hn21⟩ := hif2
      rcases hcases with hle | ⟨hds, hn⟩
      · simp only at hle
        omega
      · simp only at hds hn
        apply hif1
        refine ⟨?_, hn21⟩
        rw [hds]
        simp only [List.length_singleton]
        omega
    · -- the `0.0…0ddd` layout
      injection hform with hip0 hfp
      refine ⟨hip0.symm, ?_⟩
      intro x hx
      rw [← hfp] at hx
      rcases List.mem_append.1 hx with hx | hx
      · have := List.eq_of_mem_replicate hx
        omega
      · have hmem : x ∈ (spOut (spCand q (flog 10 q + 1) d) (flog 10 q + 1) d).1 := by
          rw [← hr]
          exact hx
        exact spOut_fst_lt x hmem

theorem rtd_le_one {q : ℚ} (h0 : 0 ≤ q) (h1 : q ≤ 1) : rtd q ≤ 1 := by
  have h := @rtd_le_zpow q 0 h0 (by simpa using h1)
  simpa using h

theorem tfv_nonneg {x : ℚ} (L : ℕ) (h : 0 ≤ x) : 0 ≤ tfv x L := by
  unfold tfv
  apply div_nonneg _ (by positivity)
  have := rtu_nonneg (show (0 : ℚ) ≤ x * (10 : ℚ) ^ L by positivity)
  exact_mod_cast this

theorem tfv_le_one {x : ℚ} (L : ℕ) (h : x ≤ 1) : tfv x L ≤ 1 := by
  unfold tfv
  rw [div_le_one (by positivity : (0 : ℚ) < (10 : ℚ) ^ L)]
  have hle : x * (10 : ℚ) ^ L ≤ (((10 ^ L : ℕ) : ℤ) : ℚ) := by
    push_cast
    nlinarith [pow_pos (show (0 : ℚ) < 10 by norm_num) L]
  have := rtu_le hle
  calc ((rtu (x * (10 : ℚ) ^ L) : ℤ) : ℚ) ≤ (((10 ^ L : ℕ) : ℤ) : ℚ) := by
        exact_mod_cast this
    _ = (10 : ℚ) ^ L := by push_cast; ring

/-- Shape of the fix routine: it either returns its argument, or rounds
the re-parsed positional value at the index of the first digit run. -/
theorem fixQ_eq_or (q : ℚ) :
    fixQ q = q ∨ ∃ ip fp L, q ≠ 0 ∧ posFormOf |q| = some (PForm.decF ip fp) ∧
      fracRunIdx fp = some L ∧
      fixQ q = rtd (tfv (rtd (if q < 0 then -decValPos ip fp else decValPos ip fp)) L) := by
  by_cases h0 : q = 0
  · left
    simp [fixQ, h0]
  · rcases hpf : posFormOf |q| with _ | pf
    · left
      simp [fixQ, h0, hpf]
    · cases pf with
      | intF ds z =>
        left
        simp [fixQ, h0, hpf]
      | expF ds ex =>
        left
        simp [fixQ, h0, hpf]
      | decF ip fp =>
        rcases hfr : fracRunIdx fp with _ | L
        · left
          simp [fixQ, h0, hpf, hfr]
        · right
          refine ⟨ip, fp, L, h0, rfl, hfr, ?_⟩
          simp [fixQ, h0, hpf, hfr]

theorem fixQ_nonneg {q : ℚ} (h : 0 ≤ q) : 0 ≤ fixQ q := by
  rcases fixQ_eq_or q with heq | ⟨ip, fp, L, hne, hpf, hfr, heq⟩
  · rw [heq]
    exact h
  · rw [heq, if_neg (not_lt.2 h)]
    exact rtd_nonneg (tfv_nonneg L (rtd_nonneg (decValPos_nonneg ip fp)))

set_option maxRecDepth 40000 in
theorem fixQ_one : fixQ 1 = 1 := by decide

theorem fixQ_le_one {q : ℚ} (h0 : 0 ≤ q) (h1 : q ≤ 1) : fixQ q ≤ 1 := by
  by_cases hq1 : q = 1
  · rw [hq1, fixQ_one]
  rcases fixQ_eq_or q with heq | ⟨ip, fp, L, hne, hpf, hfr, heq⟩
  · rw [heq]
    exact h1
  · have hqpos : 0 < q := lt_of_le_of_ne h0 (Ne.symm hne)
    have habs : |q| = q := abs_of_pos hqpos
    rw [habs] at hpf
    obtain ⟨hip, hdig⟩ := posFormOf_decF_lt_one hqpos (lt_of_le_of_ne h1 hq1) hpf
    subst hip
    rw [heq, if_neg (not_lt.2 h0)]
    apply rtd_le_one (tfv_nonneg L (rtd_nonneg (decValPos_nonneg _ fp)))
    apply tfv_le_one
    exact rtd_le_one (decValPos_nonneg _ fp) (decValPos_le_one hdig)

/-- The fix routine leaves naturals below `2 ^ 53` unchanged: their host
string has no fractional part. -/
theorem fixQ_natCast {nn : ℕ} (h : nn < 2 ^ 53) : fixQ (nn : ℚ) = nn := by
  by_cases h0 : (nn : ℚ) = 0
  · rw [h0]
    simp [fixQ]
  · have hnn : 1 ≤ nn := Nat.one_le_iff_ne_zero.2 (fun hz => h0 (by simp [hz]))
    have hpos : (0 : ℚ) < (nn : ℚ) := by exact_mod_cast hnn
    obtain ⟨hlow, hhigh⟩ := flog_spec (by norm_num : 2 ≤ 10) hpos
    push_cast at hlow hhigh
    have he0 : 0 ≤ flog 10 (nn : ℚ) := by
      by_contra hc
      push_neg at hc
      have h1 : (10 : ℚ) ^ (flog 10 (nn : ℚ) + 1) ≤ (10 : ℚ) ^ (0 : ℤ) :=
        zpow_le_zpow_right₀ (by norm_num) (by omega)
      have h2 : (1 : ℚ) ≤ (nn : ℚ) := by exact_mod_cast hnn
      rw [zpow_zero] at h1
      linarith
    have he16 : flog 10 (nn : ℚ) < 16 := by
      by_contra hc
      push_neg at hc
      have h1 : (10 : ℚ) ^ (16 : ℤ) ≤ (10 : ℚ) ^ (flog 10 (nn : ℚ)) :=
        zpow_le_zpow_right₀ (by norm_num) hc
      have h2 : (nn : ℚ) < (10 : ℚ) ^ (16 : ℤ) := by
        have hq : (nn : ℚ) < ((2 ^ 53 : ℕ) : ℚ) := by exact_mod_cast h
        calc (nn : ℚ) < ((2 ^ 53 : ℕ) : ℚ) := hq
          _ < (10 : ℚ) ^ (16 : ℤ) := by norm_num
      linarith
    obtain ⟨dS, hdS⟩ : ∃ dS : ℕ, (dS : ℤ) = flog 10 (nn : ℚ) + 1 :=
      ⟨(flog 10 (nn : ℚ) + 1).toNat, by omega⟩
    have hok : spOk (nn : ℚ) (flog 10 (nn : ℚ) + 1) dS = true := by
      unfold spOk spCand
      rw [show ((dS : ℤ) - (flog 10 (nn : ℚ) + 1)) = 0 by omega, zpow_zero, mul_one]
      rw [show (flog 10 ((nn : ℚ)) + 1 - (dS : ℤ)) = 0 by omega, zpow_zero, mul_one]
      have hr : rhe ((nn : ℚ)) = ((nn : ℕ) : ℤ) := by
        have h1 := rhe_intCast ((nn : ℕ) : ℤ)
        have h2 : ((((nn : ℕ) : ℤ)) : ℚ) = ((nn : ℕ) : ℚ) := by push_cast; ring
        rw [h2] at h1
        exact h1
      rw [hr]
      have hcast : ((((nn : ℕ) : ℤ)) : ℚ) = ((nn : ℕ) : ℚ) := by push_cast; ring
      rw [hcast]
      exact beq_self_eq_true _
    obtain ⟨r, hr⟩ := @spLoop_isSome (nn : ℚ) (flog 10 (nn : ℚ) + 1) dS hok 25 1
      (by omega) (by omega)
    obtain ⟨ds, n⟩ := r
    obtain ⟨d, hd1, hd2, hdok, hrout, hmin⟩ := spLoop_spec hr
    have hdle : d ≤ dS := by
      by_contra hc
      push_neg at hc
      have hfalse := hmin dS (by omega) hc
      simp [hok] at hfalse
    have hcand : (spCand (nn : ℚ) (flog 10 (nn : ℚ) + 1) d).toNat ≤ 10 ^ d :=
      spCand_toNat_le hpos
    have hn_eq : n = flog 10 (nn : ℚ) + 1 - (d : ℤ) +
        ((Nat.digits 10 (spCand (nn : ℚ) (flog 10 (nn : ℚ) + 1) d).toNat).length : ℤ) := by
      have := congrArg Prod.snd hrout
      simp only at this
      rw [this, spOut_snd_eq]
    have hk_le : ds.length ≤
        (Nat.digits 10 (spCand (nn : ℚ) (flog 10 (nn : ℚ) + 1) d).toNat).length := by
      have := congrArg Prod.fst hrout
      simp only at this
      rw [this]
      exact spOut_fst_length_le _ _ _
    have hlen_le : (Nat.digits 10 (spCand (nn : ℚ) (flog 10 (nn : ℚ) + 1) d).toNat).length
        ≤ d + 1 := by
      apply digitsLen_le
      calc (spCand (nn : ℚ) (flog 10 (nn : ℚ) + 1) d).toNat ≤ 10 ^ d := hcand
        _ < 10 ^ (d + 1) := by
            have := pow_pos (show 0 < 10 by norm_num) d
            calc 10 ^ d < 10 ^ d * 10 := by omega
              _ = 10 ^ (d + 1) := by ring
    have hcond : ((ds.length : ℤ) ≤ n ∧ n ≤ 21) := by
      constructor
      · omega
      · omega
    have hform : posFormOf (nn : ℚ) = some (PForm.intF ds (n - ds.length).toNat) := by
      rw [posFormOf, shortestPos_eq, hr, Option.map_some']
      rw [formAssemble]
      dsimp only
      rw [if_pos hcond]
    have habs : |(nn : ℚ)| = (nn : ℚ) := abs_of_pos hpos
    simp [fixQ, h0, habs, hform]

/-! ## The Mersenne Twister engine (`KDUniform`)

The state vector entries are stored as their unsigned 32-bit patterns
(`ℕ` below `2 ^ 32`); JavaScript's bitwise operators interpret patterns
as signed `Int32`, but every operation of the twist and of tempering is
pattern-level, so the unsigned representation is faithful.  Where the
source does plain (possibly rounding) arithmetic on values — the seed
additions of `withArray` — the model converts the pattern to its signed
value (`toI32`) and rounds each addition with `rtd`. -/

/-- `ToUint32` of an integral double (the `>>> 0` coercion). -/
def toU32 (n : ℤ) : ℕ := (n % 4294967296).toNat

/-- `ToInt32` of an integral double (the signed interpretation used by
`^`, `&`, `<<`). -/
def toI32 (n : ℤ) : ℤ :=
  let m := n % 4294967296
  if m < 2147483648 then m else m - 4294967296

/-- One step of the single-integer seeding loop of `withInt`:
`mt[i] = ((((s & 0xffff0000) >>> 16) * 1812433253) << 16)
        + (s & 0x0000ffff) * 1812433253 + i`, then `mt[i] >>>= 0`,
where `s = mt[i-1] ^ (mt[i-1] >>> 30)`. -/
def mtNext (prev i : ℕ) : ℕ :=
  let s := prev ^^^ (prev >>> 30)
  let hi := (s &&& 0xffff0000) >>> 16
  let lo := s &&& 0xffff
  toU32 (toI32 (((hi * 1812433253) % 4294967296 : ℕ) * 65536 % 4294967296) +
    (lo * 1812433253 : ℕ) + i)

/-- Identity on its second argument, but forcing the first to a numeral:
an evaluation-strictness device so that the long seeding loop reduces
iteratively (each state word becomes a literal before the next step)
instead of building a deeply nested thunk chain.  `seqNat_eq` shows it is
semantically invisible. -/
def seqNat (n : ℕ) (b : List ℕ) : List ℕ := if n = 0 then b else b

theorem seqNat_eq (n : ℕ) (b : List ℕ) : seqNat n b = b := by
  unfold seqNat
  split <;> rfl

def withIntLoop : ℕ → ℕ → ℕ → List ℕ → List ℕ
  | 0, _, _, acc => acc.reverse
  | c + 1, i, prev, acc =>
    let v := mtNext prev i
    seqNat v (withIntLoop c (i + 1) v (v :: acc))

/-- `_private.seed.withInt`: the 624-word state vector seeded from a
single integer (`mt[0] = seed >>> 0`, then the recurrence above for
`mti = 1 … 623`). -/
def mtFromInt (seed : ℕ) : List ℕ :=
  let m0 := seed % 4294967296
  withIntLoop 623 1 m0 [m0]

/-- One write of the twist: for index `kk`,
`y = (mt[kk] & 0x80000000) | (mt[(kk+1) % 624] & 0x7fffffff)` and
`mt[kk] = mt[src] ^ (y >>> 1) ^ mag01[y & 1]`, where `src` is
`kk + 397` in the first loop, `kk - 227` in the second and `396` for the
final word. -/
def twistAt (mt : List ℕ) (kk : ℕ) : List ℕ :=
  let y := (mt.getD kk 0 &&& 0x80000000) ||| (mt.getD ((kk + 1) % 624) 0 &&& 0x7fffffff)
  let src := if kk < 227 then kk + 397 else if kk < 623 then kk - 227 else 396
  let mag := if y % 2 = 1 then 0x9908b0df else 0
  mt.set kk ((mt.getD src 0) ^^^ (y >>> 1) ^^^ mag)

def twistLoop : ℕ → ℕ → List ℕ → List ℕ
  | 0, _, mt => mt
  | c + 1, kk, mt => twistLoop c (kk + 1) (twistAt mt kk)

/-- The full MT19937 regeneration of the state vector (the three loops
of `int32`'s twist block). -/
def mtTwist (mt : List ℕ) : List ℕ := twistLoop 624 0 mt

/-- The MT19937 tempering transform applied to a raw state word, ending
with the `>>> 0` coercion of the source. -/
def temper (y0 : ℕ) : ℕ :=
  let y1 := y0 ^^^ (y0 >>> 11)
  let y2 := y1 ^^^ ((y1 <<< 7) &&& 0x9d2c5680)
  let y3 := y2 ^^^ ((y2 <<< 15) &&& 0xefc60000)
  (y3 ^^^ (y3 >>> 18)) % 4294967296

/-- Generator core state: the vector `mt` and the cursor `mti`
(`none` models the JavaScript `null` it is initialised with). -/
structure MTS where
  mt : List ℕ
  mti : Option ℕ
deriving DecidableEq

/-- `_private.int32`.  The twist block is guarded by `mti !== null`, so
it runs on every call once the generator has been seeded; afterwards
`mti = 0` and `y = mt[mti++]` reads word `0` and leaves `mti = 1`.
(The `none` branch models the unreachable unseeded call, where
`mt[null++]` reads `mt[0]` and sets `mti = 1`.) -/
def mtInt32 (s : MTS) : ℕ × MTS :=
  match s.mti with
  | some _ =>
    let mt2 := mtTwist s.mt
    (temper (mt2.getD 0 0), ⟨mt2, some 1⟩)
  | none => (temper (s.mt.getD 0 0), ⟨s.mt, some 1⟩)

/-- `this.random` of `KDUniform`: one `int32` draw `c`, `a = c >>> 5`,
`b = c >>> 6`, `x = fix(a * 67108864.0 + b)`,
`y = fix(1.0 / 9007199254740992.0)`, result `fix(x * y)`. -/
def mtRandom (s : MTS) : ℚ × MTS :=
  let c := (mtInt32 s).1
  let a := c >>> 5
  let b := c >>> 6
  let x := fixQ (rtd (rtd ((a : ℚ) * 67108864) + (b : ℚ)))
  let y := fixQ (rtd (1 / 9007199254740992))
  (fixQ (rtd (x * y)), (mtInt32 s).2)

theorem temper_lt (y : ℕ) : temper y < 4294967296 := by
  unfold temper
  exact Nat.mod_lt _ (by norm_num)

theorem mtInt32_lt (s : MTS) : (mtInt32 s).1 < 4294967296 := by
  unfold mtInt32
  rcases s with ⟨mt, _ | k⟩ <;> exact temper_lt _

theorem getD_set_zero (l : List ℕ) (n a : ℕ) (h : n ≠ 0) :
    (l.set n a).getD 0 0 = l.getD 0 0 := by
  cases l with
  | nil => rfl
  | cons x xs =>
    cases n with
    | zero => exact absurd rfl h
    | succ m => rfl

theorem twistAt_getD_zero (mt : List ℕ) (kk : ℕ) (h : kk ≠ 0) :
    (twistAt mt kk).getD 0 0 = mt.getD 0 0 :=
  getD_set_zero mt kk _ h

theorem twistLoop_getD_zero :
    ∀ (c kk : ℕ) (mt : List ℕ), kk ≠ 0 →
      (twistLoop c kk mt).getD 0 0 = mt.getD 0 0
  | 0, _, _, _ => rfl
  | c + 1, kk, mt, h => by
    show (twistLoop c (kk + 1) (twistAt mt kk)).getD 0 0 = _
    rw [twistLoop_getD_zero c (kk + 1) (twistAt mt kk) (Nat.succ_ne_zero kk),
      twistAt_getD_zero mt kk h]

theorem twistLoop_getD_zero0 (c : ℕ) (mt : List ℕ) :
    (twistLoop (c + 1) 0 mt).getD 0 0 = (twistAt mt 0).getD 0 0 := by
  show (twistLoop c 1 (twistAt mt 0)).getD 0 0 = _
  exact twistLoop_getD_zero c 1 (twistAt mt 0) one_ne_zero

/-- Only the first write of the twist touches word 0 of the vector, so the
word served right after a twist is determined by old words 0, 1 and 397. -/
theorem mtTwist_getD_zero (mt : List ℕ) :
    (mtTwist mt).getD 0 0 = (twistAt mt 0).getD 0 0 := by
  show (twistLoop (623 + 1) 0 mt).getD 0 0 = _
  exact twistLoop_getD_zero0 623 mt

/-! ## JavaScript numbers, `KDNumber` and `KDNumber.round`

A JavaScript number is a binary64 value: a finite value (modelled as the
rational it denotes), `NaN`, or a signed infinity.  (The model has no
negative zero; none of the verified paths distinguishes `-0` from `0`.) -/

inductive JSNum where
  | fin (q : ℚ)
  | nan
  | inf
  | ninf
deriving DecidableEq

def jsNeg : JSNum → JSNum
  | .fin a => .fin (-a)
  | .nan => .nan
  | .inf => .ninf
  | .ninf => .inf

/-- IEEE addition of doubles (`NaN` absorbing, `∞ + -∞ = NaN`), finite
results rounded to a double. -/
def jsAdd : JSNum → JSNum → JSNum
  | .fin a, .fin b => .fin (rtd (a + b))
  | .nan, _ => .nan
  | _, .nan => .nan
  | .inf, .ninf => .nan
  | .ninf, .inf => .nan
  | .inf, _ => .inf
  | _, .inf => .inf
  | .ninf, _ => .ninf
  | _, .ninf => .ninf

/-- IEEE subtraction: `a - b = a + (-b)` exactly. -/
def jsSub (a b : JSNum) : JSNum := jsAdd a (jsNeg b)

/-- IEEE multiplication (`0 · ∞ = NaN`). -/
def jsMul : JSNum → JSNum → JSNum
  | .fin a, .fin b => .fin (rtd (a * b))
  | .nan, _ => .nan
  | _, .nan => .nan
  | .inf, .inf => .inf
  | .inf, .ninf => .ninf
  | .ninf, .inf => .ninf
  | .ninf, .ninf => .inf
  | .inf, .fin b => if b = 0 then .nan else if 0 < b then .inf else .ninf
  | .fin a, .inf => if a = 0 then .nan else if 0 < a then .inf else .ninf
  | .ninf, .fin b => if b = 0 then .nan else if 0 < b then .ninf else .inf
  | .fin a, .ninf => if a = 0 then .nan else if 0 < a then .ninf else .inf

/-- IEEE division (division of a nonzero finite value by zero gives a
signed infinity; the model carries no negative zero, so the zero divisor
counts as positive). -/
def jsDiv : JSNum → JSNum → JSNum
  | .fin a, .fin b =>
    if b = 0 then (if a = 0 then .nan else if 0 < a then .inf else .ninf)
    else .fin (rtd (a / b))
  | .nan, _ => .nan
  | _, .nan => .nan
  | .inf, .inf => .nan
  | .inf, .ninf => .nan
  | .ninf, .inf => .nan
  | .ninf, .ninf => .nan
  | .inf, .fin b => if 0 ≤ b then .inf else .ninf
  | .ninf, .fin b => if 0 ≤ b then .ninf else .inf
  | .fin _, .inf => .fin 0
  | .fin _, .ninf => .fin 0

/-- `Math.max` (NaN absorbing). -/
def jsMax : JSNum → JSNum → JSNum
  | .fin a, .fin b => .fin (max a b)
  | .nan, _ => .nan
  | _, .nan => .nan
  | .inf, _ => .inf
  | _, .inf => .inf
  | .ninf, b => b
  | a, .ninf => a

/-- `Math.min` (NaN absorbing). -/
def jsMin : JSNum → JSNum → JSNum
  | .fin a, .fin b => .fin (min a b)
  | .nan, _ => .nan
  | _, .nan => .nan
  | .ninf, _ => .ninf
  | _, .ninf => .ninf
  | .inf, b => b
  | a, .inf => a

/-- `KDNumber.floatingPointFix` on a general number: `NaN` is falsy and
returned unchanged, the strings `Infinity`/`-Infinity` have no `.` part,
so only finite values are touched. -/
def fixJS : JSNum → JSNum
  | .fin q => .fin (fixQ q)
  | v => v

/-- `KDNumber.clip(value, [lo, hi])`:
`fix(Math.min(fix(Math.max(lo, v)), hi))`. -/
def KDclipJS (v lo hi : JSNum) : JSNum :=
  fixJS (jsMin (fixJS (jsMax lo v)) hi)

/-- `KDNumber.scale(value, [r1a, r1b], [r2a, r2b])` (the `deps` version,
which also applies the fix to the two range sizes). -/
def KDscaleJS (v r1a r1b r2a r2b : JSNum) : JSNum :=
  let r1Size := fixJS (jsSub r1b r1a)
  let r2Size := fixJS (jsSub r2b r2a)
  let x := fixJS (jsSub v r1a)
  let y := fixJS (jsMul x r2Size)
  let z := fixJS (jsDiv y r1Size)
  fixJS (jsAdd z r2a)

/-- `KDNumber.clip` on finite doubles (the image of `KDclipJS` on `fin`
arguments). -/
def KDclipQ (v lo hi : ℚ) : ℚ := fixQ (min (fixQ (max lo v)) hi)

/-- `KDNumber.scale` on finite doubles with a nonzero initial range (the
image of `KDscaleJS` there). -/
def KDscaleQ (v r1a r1b r2a r2b : ℚ) : ℚ :=
  let r1Size := fixQ (rtd (r1b - r1a))
  let r2Size := fixQ (rtd (r2b - r2a))
  let x := fixQ (rtd (v - r1a))
  let y := fixQ (rtd (x * r2Size))
  let z := fixQ (rtd (y / r1Size))
  fixQ (rtd (z + r2a))

/-! ## `KDNumber.round` and the string concatenation it relies on

`KDNumber.round(value, places)` evaluates
`fix(Number(Math.round(Number(value + 'e' + places)) + 'e-' + places))`.
The inner `value + 'e' + places` is string concatenation of
`ToString(value)`, `"e"` and `ToString(places)`: when `ToString(value)`
is positional the result is a valid numeral (`"123.456e2"`), but when it
is itself exponential (`"1e-7"`, `"1e+21"`) the result (`"1e-7e0"`) is
not a numeral and `Number` yields `NaN`, which then propagates. -/

/-- The exact rational value denoted by a positional layout (`none` for
the exponential layout). -/
def formValPos : PForm → Option ℚ
  | .intF ds z => some ((digitsVal ds : ℚ) * (10 : ℚ) ^ z)
  | .decF ip fp => some (decValPos ip fp)
  | .expF _ _ => none

/-- `Number(ToString(q) ++ "e" ++ ToString(places))`: `none` means the
string is not a numeral and the result is `NaN`. -/
def concatE (q : ℚ) (places : ℤ) : Option ℚ :=
  if q = 0 then some 0
  else
    match posFormOf |q| with
    | none => none
    | some f =>
      (formValPos f).map fun v =>
        rtd ((if q < 0 then -v else v) * (10 : ℚ) ^ places)

/-- `Number(ToString(r) ++ "e-" ++ ToString(places))`: for negative
`places` the string contains `"e--"` and is never a numeral. -/
def concatNegE (r : ℚ) (places : ℤ) : Option ℚ :=
  if places < 0 then none
  else if r = 0 then some 0
  else
    match posFormOf |r| with
    | none => none
    | some f =>
      (formValPos f).map fun v =>
        rtd ((if r < 0 then -v else v) * (10 : ℚ) ^ (-places))

/-- `Math.round`: nearest integer, ties toward `+∞`, the result rounded
back to a double. -/
def jsMathRound (q : ℚ) : ℚ := rtd ((rtu q : ℤ) : ℚ)

/-- `KDNumber.round(value, places)` for a finite `value`. -/
def jsRound (value : ℚ) (places : ℤ) : JSNum :=
  match concatE value places with
  | none => .nan
  | some q1 =>
    match concatNegE (jsMathRound q1) places with
    | none => .nan
    | some q2 => .fin (fixQ q2)

/-- `KDNumber.round` on a general number: `ToString` of `NaN` and of the
infinities concatenates to a non-numeral, so the result is `NaN`. -/
def jsRoundN : JSNum → ℤ → JSNum
  | .fin q, places => jsRound q places
  | _, _ => .nan

/-! ## `KDHistory` -/

/-- `KDHistory extends Array`: the stored elements — each call
`push(...items)` appends the whole *items array* as one element — and
the capacity `max` (initially 1000; the setter stores any value passing
`Number.isSafeInteger`, so the field holds an integer of any sign). -/
structure KDHist (α : Type) where
  items : List (List α)
  max : ℤ
deriving DecidableEq

/-- `Number.isSafeInteger`. -/
def isSafeInt : JSNum → Bool
  | .fin q => decide (q.den = 1 ∧ |q| ≤ 9007199254740991)
  | _ => false

/-- The integer a safe-integer number denotes. -/
def jsToInt : JSNum → ℤ
  | .fin q => ⌊q⌋
  | _ => 0

/-- The argument of `KDHistory.max`: `undefined`, a number, or any
defined non-number value (`Number.isSafeInteger` is false for those). -/
inductive MaxArg where
  | undef
  | num (n : JSNum)
  | other
deriving DecidableEq

/-- `KDHistory.max(size)`: for a defined argument, stores it as the new
capacity when `Number.isSafeInteger(size)` — any sign — and otherwise
logs `maxHistory(size) must be a safe integer` (the `Bool` flag) and
keeps the capacity; the current capacity is returned in every case
(`undefined` only reads it). -/
def histMax (arg : MaxArg) (h : KDHist α) : ℤ × KDHist α × Bool :=
  match arg with
  | .undef => (h.max, h, false)
  | .num n =>
    if isSafeInt n then (jsToInt n, ⟨h.items, jsToInt n⟩, false)
    else (h.max, h, true)
  | .other => (h.max, h, true)

/-- One turn of `while (count--) if (this.length >= max) this.shift()`. -/
def shiftIfFull (m : ℤ) (l : List (List α)) : List (List α) :=
  if m ≤ (l.length : ℤ) then l.drop 1 else l

def shiftLoop : ℕ → ℤ → List (List α) → List (List α)
  | 0, _, l => l
  | c + 1, m, l => shiftLoop c m (shiftIfFull m l)

/-- `KDHistory.push(...items)`: shifts once per item while at capacity,
then appends the whole `items` array as a single element and returns the
new length. -/
def hPush (its : List α) (h : KDHist α) : ℕ × KDHist α :=
  let l1 := shiftLoop its.length h.max h.items
  let l2 := l1 ++ [its]
  (l2.length, ⟨l2, h.max⟩)

/-! ## `KDUniform` seeding -/

/-- `ensureUint` of `KDUniform._private.init`: values above
`Number.MAX_SAFE_INTEGER` map to `-1` (so does `Infinity`); negative
values are replaced by their absolute value; non-integers are rounded by
`toFixed(0)` (nearest, ties away from zero — the value is nonnegative at
that point, so ties go up) and the string parsed back (for `NaN` and the
infinity reached from `-Infinity` this round trip is the identity);
anything not a safe integer after that maps to `-1`. -/
def ensureUint : JSNum → ℚ
  | .inf => -1
  | .nan => -1
  | .ninf => -1
  | .fin q =>
    if 9007199254740991 < q then -1
    else
      let q1 := |q|
      let q2 : ℚ := if q1.den = 1 then q1 else ((rtu q1 : ℤ) : ℚ)
      if q2.den = 1 ∧ |q2| ≤ 9007199254740991 then q2 else -1

/-- The stored `_state.seed` after initialisation: a normalised number
or an array of normalised numbers. -/
inductive Stored where
  | num (q : ℚ)
  | arr (l : List ℚ)
deriving DecidableEq

/-- A seed argument as `_private.init` distinguishes them: a number
(including `NaN` and the infinities — their `typeof` is `number`), an
array all of whose elements are numbers (a `Uint32Array` spreads into
one), or anything else. -/
inductive SeedArg where
  | num (n : JSNum)
  | arr (l : List JSNum)
  | other

/-- The state of a `KDUniform` instance: the generator core and the
stored `_state.seed`. -/
structure UState where
  gen : MTS
  seedVal : Stored
deriving DecidableEq

/-- Truncation toward zero of a double value (the first step of the
`ToUint32`/`ToInt32` conversions). -/
def truncQ (q : ℚ) : ℤ := if q < 0 then -⌊-q⌋ else ⌊q⌋

/-- `ToUint32` of a double value. -/
def toU32Q (q : ℚ) : ℕ := toU32 (truncQ q)

/-- `_private.seed.withInt` on a double seed value (`seed >>> 0`, then
the seeding loop). -/
def mtFromQ (q : ℚ) : List ℕ :=
  withIntLoop 623 1 (toU32Q q) [toU32Q q]

/-- The pattern `mt[i] ^ (((((s & 0xffff0000) >>> 16) * mult) << 16) + (s & 0xffff) * mult)`
shared by the two `withArray` mixing loops (`s = mt[i-1] ^ (mt[i-1] >>> 30)`;
`<< 16` wraps to a signed 32-bit value, and `^` reads both sides as
signed 32-bit values). -/
def waMix (mult i : ℕ) (mt : List ℕ) : ℤ :=
  let prev := mt.getD (i - 1) 0
  let s := prev ^^^ (prev >>> 30)
  let a : ℤ := toI32 ((((((s &&& 0xffff0000) >>> 16) * mult) % 4294967296) * 65536 : ℕ) : ℤ)
  let b : ℕ := (s &&& 0xffff) * mult
  toI32 (((mt.getD i 0 ^^^ toU32 (a + (b : ℤ))) : ℕ) : ℤ)

/-- First `withArray` loop body: `mt[i] = ((mix + v[j]) + j) >>> 0`, the
two additions in double arithmetic (the seed component can be as large
as `2^53 - 1`, so they can round). -/
def waStep1 (i j : ℕ) (vj : ℚ) (mt : List ℕ) : List ℕ :=
  mt.set i (toU32Q (rtd (rtd ((waMix 1664525 i mt : ℚ) + vj) + (j : ℚ))))

/-- Second `withArray` loop body: `mt[i] = (mix - i) >>> 0`. -/
def waStep2 (i : ℕ) (mt : List ℕ) : List ℕ :=
  mt.set i (toU32Q (rtd ((waMix 1566083941 i mt : ℚ) - (i : ℚ))))

/-- `i++` and the wrap `if (i >= N) { mt[0] = mt[N - 1]; i = 1; }`. -/
def waWrap (p : ℕ × List ℕ) : ℕ × List ℕ :=
  if 624 ≤ p.1 then (1, p.2.set 0 (p.2.getD 623 0)) else p

def waLoop1 : ℕ → ℕ → ℕ → List ℚ → List ℕ → ℕ × List ℕ
  | 0, i, _, _, mt => (i, mt)
  | k + 1, i, j, v, mt =>
    let p := waWrap (i + 1, waStep1 i j (v.getD j 0) mt)
    let j1 := if v.length ≤ j + 1 then 0 else j + 1
    waLoop1 k p.1 j1 v p.2

def waLoop2 : ℕ → ℕ → List ℕ → List ℕ
  | 0, _, mt => mt
  | k + 1, i, mt =>
    let p := waWrap (i + 1, waStep2 i mt)
    waLoop2 k p.1 p.2

/-- `_private.seed.withArray(v)`: seed with `v[0]`, run `max(624, |v|)`
steps of the first mixing loop, 623 of the second, then the final guard
(`mt` always has 624 words here, so the guard never fires). -/
def mtFromArr (v : List ℚ) : List ℕ :=
  let p := waLoop1 (max 624 v.length) 1 0 v (mtFromQ (v.getD 0 0))
  let mt2 := waLoop2 623 p.1 p.2
  if mt2.length < 1 then [0x80000000] else mt2

/-- `_private.seed.withCrypto`, parameterised by the random array `cry`
the host crypto source delivers. -/
def withCryptoSt (cry : List ℕ) : UState :=
  ⟨⟨mtFromArr (cry.map fun n => (n : ℚ)), some 624⟩,
    .arr (cry.map fun n => (n : ℚ))⟩

/-- `_private.init(seed)` of `KDUniform`. -/
def uInit (cry : List ℕ) (arg : SeedArg) : UState :=
  match arg with
  | .num n =>
    let ss := ensureUint n
    if 0 ≤ ss then ⟨⟨mtFromQ ss, some 624⟩, .num ss⟩
    else withCryptoSt cry
  | .arr l =>
    if l.length = 0 then withCryptoSt cry
    else
      let ss := l.map ensureUint
      if (-1 : ℚ) ∈ ss then withCryptoSt cry
      else ⟨⟨mtFromArr ss, some 624⟩, .arr ss⟩
  | .other => withCryptoSt cry

/-- The argument of the `seed` methods. -/
inductive USArg where
  | undef
  | jsNull
  | val (a : SeedArg)

/-- `this.seed` of `KDUniform`: `undefined` and `null` skip
re-initialisation; the stored seed is returned either way. -/
def uSeed (cry : List ℕ) (arg : USArg) (st : UState) : UState × Stored :=
  match arg with
  | .undef => (st, st.seedVal)
  | .jsNull => (st, st.seedVal)
  | .val a =>
    let st1 := uInit cry a
    (st1, st1.seedVal)

/-! ## `KDRoll` -/

/-- The state of a `KDRoll` instance. -/
structure RollState where
  u : UState
  hist : KDHist JSNum
deriving DecidableEq

/-- `clearHistory`: a fresh buffer with the capacity carried over (a
stored capacity always passes `Number.isSafeInteger`, so the
`history.max(max)` round trip through the new buffer keeps it). -/
def clearHist (h : KDHist JSNum) : KDHist JSNum := ⟨[], h.max⟩

/-- `KDRoll.prototype.seed(seed)`: `undefined` only reads; any other
argument (including `null`) clears the history and is handed to
`uniform.seed`, which ignores `null`; the stored seed of the uniform
generator is returned. -/
def rollSeed (cry : List ℕ) (arg : USArg) (st : RollState) : RollState × Stored :=
  match arg with
  | .undef => (st, (uSeed cry .undef st.u).2)
  | .jsNull =>
    let p := uSeed cry .jsNull st.u
    (⟨p.1, clearHist st.hist⟩, (uSeed cry .undef p.1).2)
  | .val a =>
    let p := uSeed cry (.val a) st.u
    (⟨p.1, clearHist st.hist⟩, (uSeed cry .undef p.1).2)

/-- The argument of `d(sides)`: a number (any, including `NaN` and the
infinities) or anything whose `typeof` is not `number`. -/
inductive DArg where
  | num (sides : JSNum)
  | nonNum

/-- `KDRoll.prototype.d(sides)`: for a numeric argument one uniform draw
is scaled to `[1, sides]`, rounded to a whole number, appended to the
history and returned; otherwise an `Error` is logged (the `Bool` flag)
and `NaN` returned with the state untouched. -/
def rollD (arg : DArg) (st : RollState) : JSNum × RollState × Bool :=
  match arg with
  | .num sides =>
    let r := mtRandom st.u.gen
    let scaled := KDscaleJS (.fin r.1) (.fin 0) (.fin 1) (.fin 1) sides
    let rounded := jsRoundN scaled 0
    (rounded, ⟨⟨r.2, st.u.seedVal⟩, (hPush [rounded] st.hist).2⟩, false)
  | .nonNum => (.nan, st, true)

/-! ## `KDGaussian` -/

/-- The double value of `Math.PI`. -/
def piD : ℚ := 884279719003555 / 281474976710656

/-- `scaleSkew` of `KDGaussian`: `n = new KDNumber(Math.abs(sk))` (range
defaulting to `[0, 1]`), `n.clip(0, 1)`, then skew `0` maps to `1`,
negative skew to `1 - n.value()`, positive skew to `n.scale(0, 4)` (a
scale from the current range `[0, 1]` to `[0, 4]`). -/
def scaleSkew (sk : ℚ) : JSNum :=
  let n1 := KDclipJS (.fin |sk|) (.fin 0) (.fin 1)
  if sk = 0 then .fin 1
  else if sk < 0 then jsSub (.fin 1) n1
  else KDscaleJS n1 (.fin 0) (.fin 1) (.fin 0) (.fin 4)

/-- `scaleSkew` over ℚ (`scaleSkew_fin` below shows the two agree on
every finite argument). -/
def scaleSkewQ (sk : ℚ) : ℚ :=
  let c := KDclipQ |sk| 0 1
  if sk = 0 then 1
  else if sk < 0 then rtd (1 - c)
  else KDscaleQ c 0 1 0 4

/-- `while (u === 0) u = uniformGenerator.random()` over an abstract
draw stream `d`: the first nonzero draw from index `i` on, with the
index after it; `none` when `fuel` draws were all zero. -/
def findNZ (d : ℕ → ℚ) : ℕ → ℕ → Option (ℚ × ℕ)
  | 0, _ => none
  | f + 1, i => if d i = 0 then findNZ d f (i + 1) else some (d i, i + 1)

/-- `KDGaussian(uniformGenerator, skew)` over an abstract model of the
host: `lg`, `cs`, `sq` stand for `Math.log`, `Math.cos`, `Math.sqrt`
(returning the double result for a double argument), `pw b e` for
`Math.pow(b, e)`, and `d` for the stream of all uniform draws (the
resampling branch constructs a fresh crypto-seeded `KDUniform`; its
draws continue the stream).  `fuel` bounds the resampling recursion and
the zero-skipping loops; `none` means the bound was hit.  Note that the
resampling call passes the already-scaled skew, which gets scaled
again on entry. -/
def KDGaussianM (lg cs sq : ℚ → ℚ) (pw : ℚ → ℚ → ℚ) (d : ℕ → ℚ) :
    ℕ → ℕ → ℚ → Option ℚ
  | 0, _, _ => none
  | fuel + 1, i, skew =>
    let sk := scaleSkewQ skew
    match findNZ d (fuel + 1) i with
    | none => none
    | some (u, i1) =>
      match findNZ d (fuel + 1) i1 with
      | none => none
      | some (v, i2) =>
        let num0 := fixQ (rtd (sq (rtd (-2 * lg u)) * cs (rtd (rtd (2 * piD) * v))))
        let num1 := fixQ (rtd (rtd (num0 / 10) + 1 / 2))
        if 1 < num1 ∨ num1 < 0 then
          match KDGaussianM lg cs sq pw d fuel i2 sk with
          | none => none
          | some num2 => some (fixQ (pw num2 sk))
        else some (fixQ (pw num1 sk))

/-! ## Claim theorems: generator core -/

/-- The first component of a `random()` draw, written out (used by the
range bound and the concrete evaluation below). -/
theorem mtRandom_fst (s : MTS) :
    (mtRandom s).1 =
      fixQ (rtd (fixQ (rtd (rtd ((((mtInt32 s).1 >>> 5 : ℕ) : ℚ) * 67108864) +
        (((mtInt32 s).1 >>> 6 : ℕ) : ℚ))) * fixQ (rtd (1 / 9007199254740992)))) := rfl

/-- C1.  The guard of the twist block is `mti !== null`, not
`mti >= 624`: on a seeded generator (`mti = some k`, any `k`) *every*
call of `int32` recomputes the whole state vector with the MT19937 twist
and serves word 0, leaving the cursor at 1 — not one twist per 624
draws.  The spec sentence "regeneration occurs exactly every 624 draws"
fails for every state with `k ≠ 624`. -/
theorem C1_twist_every_draw (mt : List ℕ) (k : ℕ) :
    mtInt32 ⟨mt, some k⟩ = (temper ((mtTwist mt).getD 0 0), ⟨mtTwist mt, some 1⟩) := rfl

/-- C2.  `random()` calls `int32` once: `a = c >>> 5` and `b = c >>> 6`
are both computed from the single tempered output `c`, and the state
advances by exactly one `int32` call — not the standard two-draw 26/27
bit composition. -/
theorem C2_single_draw_composition (s : MTS) :
    mtRandom s =
      (fixQ (rtd (fixQ (rtd (rtd ((((mtInt32 s).1 >>> 5 : ℕ) : ℚ) * 67108864) +
        (((mtInt32 s).1 >>> 6 : ℕ) : ℚ))) * fixQ (rtd (1 / 9007199254740992)))),
       (mtInt32 s).2) := rfl

set_option maxRecDepth 400000 in
/-- The constant factor `y = fix(1.0 / 9007199254740992.0)` of
`random()` evaluates to `2 ^ -53` itself. -/
theorem fixQ_ulp : fixQ (rtd (1 / 9007199254740992)) = 1 / 9007199254740992 := by decide

/-- The 53-bit composition of `random()` on exact inputs: for
`a < 2 ^ 27` and `b < 2 ^ 26`, `fix(a * 67108864.0 + b)` is the exact
natural `a * 2 ^ 26 + b`. -/
theorem comp53 {a b : ℕ} (ha : a < 134217728) (hb : b < 67108864) :
    fixQ (rtd (rtd ((a : ℚ) * 67108864) + (b : ℚ))) = ((a * 67108864 + b : ℕ) : ℚ) := by
  have hab : a * 67108864 + b < 2 ^ 53 := by
    have h53 : (2 : ℕ) ^ 53 = 9007199254740992 := by norm_num
    omega
  have e1 : ((a : ℚ) * 67108864) = ((a * 67108864 : ℕ) : ℚ) := by
    push_cast
    ring
  rw [e1, rtd_natCast_eq (by omega)]
  have e2 : (((a * 67108864 : ℕ) : ℚ) + (b : ℚ)) = ((a * 67108864 + b : ℕ) : ℚ) := by
    push_cast
    ring
  rw [e2, rtd_natCast_eq hab, fixQ_natCast hab]

/-- C3 (amended).  Every value `random()` returns lies in the *closed*
interval `[0, 1]`: the floating-point fix can round a draw of the form
`0.99999988…` up to exactly `1`, so the interval is not half-open. -/
theorem C3_unit_interval_closed (s : MTS) :
    0 ≤ (mtRandom s).1 ∧ (mtRandom s).1 ≤ 1 := by
  obtain ⟨c, hc, hclt⟩ : ∃ c, (mtInt32 s).1 = c ∧ c < 4294967296 :=
    ⟨_, rfl, mtInt32_lt s⟩
  have ha : c >>> 5 < 134217728 := by
    rw [Nat.shiftRight_eq_div_pow]
    omega
  have hb : c >>> 6 < 67108864 := by
    rw [Nat.shiftRight_eq_div_pow]
    omega
  have hn : (((c >>> 5) * 67108864 + c >>> 6 : ℕ) : ℚ) ≤ 9007199254740991 := by
    have : (c >>> 5) * 67108864 + c >>> 6 ≤ 9007199254740991 := by omega
    exact_mod_cast this
  rw [mtRandom_fst, hc, comp53 ha hb, fixQ_ulp]
  have hprod0 : (0 : ℚ) ≤ (((c >>> 5) * 67108864 + c >>> 6 : ℕ) : ℚ) * (1 / 9007199254740992) := by
    positivity
  have hprod1 : (((c >>> 5) * 67108864 + c >>> 6 : ℕ) : ℚ) * (1 / 9007199254740992) ≤ 1 := by
    rw [mul_one_div, div_le_one (by norm_num)]
    linarith [hn]
  constructor
  · exact fixQ_nonneg (rtd_nonneg hprod0)
  · exact fixQ_le_one (rtd_nonneg hprod0) (rtd_le_one hprod0 hprod1)

set_option maxRecDepth 400000 in
/-- C3 (counterexample to the half-open interval).  Seeding with the
integer 2114088 and drawing once returns exactly 1: the raw draw is
`c = 4294966784`, the 53-bit composition gives
`9007198248108024 / 2^53 = 0.9999998882412902…`, whose string has a run
of six 9s right after the decimal point, so the fix rounds it to 1. -/
theorem C3_draw_equals_one :
    (mtRandom ⟨mtFromInt 2114088, some 624⟩).1 = 1 := by
  have hc : (mtInt32 ⟨mtFromInt 2114088, some 624⟩).1 = 4294966784 := by
    show temper ((mtTwist (mtFromInt 2114088)).getD 0 0) = _
    rw [mtTwist_getD_zero]
    decide
  rw [mtRandom_fst, hc]
  decide

/-! ## Claim theorems: history and the roll manager -/

/-- C7 (amended).  The capacity setter stores *any* value passing
`Number.isSafeInteger` — including negative integers — silently; for
every other *defined* argument (non-integers, `NaN`, the infinities,
non-numbers) the previous capacity is retained, the elements are never
touched, and the non-fatal `console.log` diagnostic is emitted;
`undefined` reads silently.  The resulting (new or retained) capacity
is returned in every case. -/
theorem C7_capacity_setter (n : JSNum) (h : KDHist JSNum) :
    histMax (.num n) h
      = (if isSafeInt n then (jsToInt n, ⟨h.items, jsToInt n⟩, false)
         else (h.max, h, true))
    ∧ histMax .undef h = (h.max, h, false)
    ∧ histMax .other h = (h.max, h, true) := by
  refine ⟨?_, rfl, rfl⟩
  cases hn : isSafeInt n <;> simp [histMax, hn]

/-- C7 (counterexample to "changes the capacity only when `n` is a
non-negative safe integer; for every other argument the previous
capacity is retained and a diagnostic is signaled"): `max(-1)` on a
buffer with capacity 1000 *changes* the capacity to `-1`, returns `-1`,
and signals no diagnostic. -/
theorem C7_negative_capacity_accepted :
    histMax (.num (.fin (-1))) (⟨[], 1000⟩ : KDHist JSNum)
      = (-1, ⟨[], -1⟩, false) := by decide

/-- C8.  `d(sides)` with a non-numeric argument returns the `NaN`
sentinel, logs an `Error` (the flag), and leaves the whole state — in
particular the history buffer — untouched; no exception is involved
(the model is a total function). -/
theorem C8_nonnumeric_d (st : RollState) :
    rollD .nonNum st = (.nan, st, true) := rfl

/-- C9.  `seed(null)` on the roll manager clears the history (keeping
its capacity) but never reaches the generator: `KDUniform.seed` ignores
`null`, so the generator state and the stored seed — hence the value
returned and every subsequent draw — are what they were before the
call. -/
theorem C9_seed_null_frame (cry : List ℕ) (st : RollState) :
    rollSeed cry .jsNull st = (⟨st.u, ⟨[], st.hist.max⟩⟩, st.u.seedVal) := rfl

/-- A sequence of single-element pushes (what the roll manager performs:
`history.push(rand)` once per draw). -/
def pushSeq (vs : List JSNum) (h : KDHist JSNum) : KDHist JSNum :=
  vs.foldl (fun h v => (hPush [v] h).2) h

/-- C5 (counterexample to "length never exceeds capacity"): with the
(settable, per the capacity setter) capacity 0, a push still appends —
the shift on the empty buffer is a no-op — and the length 1 exceeds the
capacity 0. -/
theorem C5_capacity_zero_overflow :
    ¬ (((hPush [JSNum.fin 1] (⟨[], 0⟩ : KDHist JSNum)).2.items.length : ℤ)
        ≤ (⟨[], 0⟩ : KDHist JSNum).max) := by decide

/-- C5 (amended).  For a *positive* capacity `C` and any sequence of
single pushes into an initially empty buffer, the buffer holds exactly
the most recent `min |vs| C` values in their original order (each
wrapped as a one-element items array, as `push` stores them), so the
length never exceeds the capacity and eviction is oldest-first. -/
theorem C5_capacity_bound (C : ℤ) (hC : 1 ≤ C) (vs : List JSNum) :
    (pushSeq vs ⟨[], C⟩).items
      = (vs.drop (vs.length - C.toNat)).map (fun v => [v])
    ∧ ((pushSeq vs ⟨[], C⟩).items.length : ℤ) ≤ C := by
  have hCt : C.toNat = C := Int.toNat_of_nonneg (by omega)
  have hCt1 : 1 ≤ C.toNat := by omega
  induction vs using List.reverseRecOn with
  | nil =>
    constructor
    · simp [pushSeq]
    · simp only [pushSeq, List.foldl_nil, List.length_nil, Nat.cast_zero]
      omega
  | append_singleton ws v ih =>
    obtain ⟨hitems, hlen⟩ := ih
    have hstep : pushSeq (ws ++ [v]) ⟨[], C⟩ = (hPush [v] (pushSeq ws ⟨[], C⟩)).2 := by
      simp [pushSeq, List.foldl_append]
    have hmax : (pushSeq ws (⟨[], C⟩ : KDHist JSNum)).max = C := by
      clear hitems hlen hstep
      induction ws using List.reverseRecOn with
      | nil => rfl
      | append_singleton ws2 v2 ih2 =>
        simp only [pushSeq, List.foldl_append, List.foldl_cons, List.foldl_nil]
        simpa [hPush] using ih2
    have hlenws : (pushSeq ws (⟨[], C⟩ : KDHist JSNum)).items.length
        = ws.length - (ws.length - C.toNat) := by
      rw [hitems]
      simp
    rw [hstep]
    simp only [hPush, hmax, List.length_singleton]
    by_cases hfull : C ≤ ((pushSeq ws (⟨[], C⟩ : KDHist JSNum)).items.length : ℤ)
    · have hge : C.toNat ≤ ws.length := by omega
      have hshift : shiftLoop 1 C (pushSeq ws (⟨[], C⟩ : KDHist JSNum)).items
          = (pushSeq ws (⟨[], C⟩ : KDHist JSNum)).items.drop 1 := by
        simp [shiftLoop, shiftIfFull, hfull]
      have hn2 : (ws ++ [v]).length - C.toNat = (ws.length - C.toNat) + 1 := by
        simp only [List.length_append, List.length_singleton]
        omega
      constructor
      · rw [hshift, hitems, ← List.map_drop, List.drop_drop, hn2,
          List.drop_append_of_le_length (by omega)]
        simp [Nat.add_comm]
      · rw [hshift]
        simp only [List.length_append, List.length_drop, List.length_map,
          List.length_singleton]
        push_cast
        omega
    · have hlt : ws.length < C.toNat := by omega
      constructor
      · rw [hitems]
        rw [show ws.length - C.toNat = 0 by omega, show (ws ++ [v]).length - C.toNat = 0 by
          simp only [List.length_append, List.length_singleton]; omega]
        simp only [shiftLoop, shiftIfFull, List.drop_zero, List.map_append,
          List.length_map]
        split
        · exfalso
          omega
        · rfl
      · simp only [shiftLoop, shiftIfFull, if_neg hfull, List.length_append,
          List.length_singleton]
        push_cast
        omega

/-- C5 (witness): capacity 2, three pushes — the buffer keeps the last
two values in order. -/
theorem C5_capacity_bound_witness :
    (pushSeq [JSNum.fin 1, JSNum.fin 2, JSNum.fin 3] ⟨[], 2⟩).items
      = ([JSNum.fin 1, JSNum.fin 2, JSNum.fin 3].drop
          ([JSNum.fin 1, JSNum.fin 2, JSNum.fin 3].length - (2 : ℤ).toNat)).map (fun v => [v])
    ∧ (((pushSeq [JSNum.fin 1, JSNum.fin 2, JSNum.fin 3] ⟨[], 2⟩).items.length : ℤ) ≤ 2) :=
  C5_capacity_bound 2 (by norm_num) [JSNum.fin 1, JSNum.fin 2, JSNum.fin 3]

set_option maxRecDepth 400000 in
/-- C6.  Seed normalisation: `seed(123.456)` stores and returns the
effective seed 123 (the double nearest `123.456`, rounded by
`toFixed(0)`), `seed(-123)` gives 123 (unsign), and
`seed([123.456, -456.789])` gives `[123, 457]` (round half up after
unsign).  Any component on which `ensureUint` fails — `NaN`, the
infinities, magnitudes beyond the safe-integer range — makes `init`
discard the whole seed and fall back to a freshly drawn crypto seed
array. -/
theorem C6_seed_normalization (cry : List ℕ) (st : UState) :
    (uSeed cry (.val (.num (.fin (rtd (123456 / 1000))))) st).2 = .num 123
  ∧ (uSeed cry (.val (.num (.fin (-123)))) st).2 = .num 123
  ∧ (uSeed cry (.val (.arr [.fin (rtd (123456 / 1000)), .fin (rtd (-456789 / 1000))])) st).2
      = .arr [123, 457]
  ∧ (∀ n : JSNum, ensureUint n = -1 →
      uSeed cry (.val (.num n)) st = (withCryptoSt cry, (withCryptoSt cry).seedVal))
  ∧ (∀ l : List JSNum, (∃ n ∈ l, ensureUint n = -1) →
      uSeed cry (.val (.arr l)) st = (withCryptoSt cry, (withCryptoSt cry).seedVal)) := by
  refine ⟨?_, ?_, ?_, ?_, ?_⟩
  · have h : ensureUint (.fin (rtd (123456 / 1000))) = 123 := by decide
    simp only [uSeed, uInit]
    rw [h]
    norm_num
  · have h : ensureUint (.fin (-123)) = 123 := by decide
    simp only [uSeed, uInit]
    rw [h]
    norm_num
  · have h1 : ensureUint (.fin (rtd (123456 / 1000))) = 123 := by decide
    have h2 : ensureUint (.fin (rtd (-456789 / 1000))) = 457 := by decide
    simp only [uSeed, uInit, List.map_cons, List.map_nil, List.length_cons,
      List.length_nil]
    rw [h1, h2]
    norm_num [List.mem_cons]
  · intro n hn
    norm_num [uSeed, uInit, hn]
  · intro l hl
    rcases hl with ⟨n, hm, hn⟩
    have hne : l.length ≠ 0 := by
      cases l
      · simp at hm
      · simp
    have hmem : (-1 : ℚ) ∈ l.map ensureUint := List.mem_map.mpr ⟨n, hm, hn⟩
    simp [uSeed, uInit, hne, hmem]

set_option maxRecDepth 400000 in
/-- C10.  `KDNumber.round(value, places)` is partial: whenever the host
string of the (nonzero, finite) value is in exponential layout, the
concatenation `value + 'e' + places` is not a numeral, `Number` gives
`NaN`, and the whole call returns `NaN` instead of a rounded value. -/
theorem C10_round_exponential_nan (q : ℚ) (places : ℤ) (ds : List ℕ) (ex : ℤ)
    (h0 : q ≠ 0) (hf : posFormOf |q| = some (.expF ds ex)) :
    jsRound q places = .nan := by
  simp [jsRound, concatE, h0, hf, formValPos]

set_option maxRecDepth 400000 in
/-- C10 (witness): `10^21` prints as `1e+21`, and `round(1e21, 0)` is
`NaN`. -/
theorem C10_round_exponential_nan_witness :
    (10 ^ 21 : ℚ) ≠ 0
    ∧ posFormOf |(10 ^ 21 : ℚ)| = some (.expF [1] 21)
    ∧ jsRound (10 ^ 21 : ℚ) 0 = .nan :=
  ⟨by norm_num, by decide,
    C10_round_exponential_nan (10 ^ 21 : ℚ) 0 [1] 21 (by norm_num) (by decide)⟩

/-! ## Claim theorems: the Gaussian transform -/

theorem KDclipJS_fin (v lo hi : ℚ) :
    KDclipJS (.fin v) (.fin lo) (.fin hi) = .fin (KDclipQ v lo hi) := rfl

set_option maxRecDepth 40000 in
theorem fixQ_rtd_one : fixQ (rtd ((1 : ℚ) - 0)) = 1 := by decide

/-- `KDNumber.scale` on finite inputs whose initial range has nonzero
(fixed) size stays finite and agrees with the ℚ-level chain. -/
theorem KDscaleJS_fin (v r1a r1b r2a r2b : ℚ)
    (hr1 : fixQ (rtd (r1b - r1a)) ≠ 0) :
    KDscaleJS (.fin v) (.fin r1a) (.fin r1b) (.fin r2a) (.fin r2b)
      = .fin (KDscaleQ v r1a r1b r2a r2b) := by
  have e : ∀ a b : ℚ, a + -b = a - b := fun a b => (sub_eq_add_neg a b).symm
  unfold KDscaleJS KDscaleQ
  simp only [jsSub, jsNeg, jsAdd, fixJS, jsMul, e, jsDiv]
  rw [if_neg hr1]

/-- `scaleSkew` always produces a finite value, the ℚ-level one. -/
theorem scaleSkew_fin (sk : ℚ) : scaleSkew sk = .fin (scaleSkewQ sk) := by
  unfold scaleSkew scaleSkewQ
  rw [KDclipJS_fin]
  split_ifs with h1 h2
  · rfl
  · simp [jsSub, jsAdd, jsNeg, sub_eq_add_neg]
  · exact KDscaleJS_fin _ 0 1 0 4 (by rw [fixQ_rtd_one]; norm_num)

theorem KDclipQ_mem_unit (v : ℚ) : 0 ≤ KDclipQ v 0 1 ∧ KDclipQ v 0 1 ≤ 1 := by
  unfold KDclipQ
  have h0 : (0 : ℚ) ≤ fixQ (max 0 v) := fixQ_nonneg (le_max_left 0 v)
  have hmin0 : (0 : ℚ) ≤ min (fixQ (max 0 v)) 1 := le_min h0 (by norm_num)
  exact ⟨fixQ_nonneg hmin0, fixQ_le_one hmin0 (min_le_right _ _)⟩

/-- The exponent computed by `scaleSkew` is never negative (for any
argument, which matters because resampling rescales an already scaled
skew). -/
theorem scaleSkewQ_nonneg (sk : ℚ) : 0 ≤ scaleSkewQ sk := by
  unfold scaleSkewQ KDscaleQ
  split_ifs with h1 h2
  · norm_num
  · exact rtd_nonneg (by linarith [(KDclipQ_mem_unit |sk|).2])
  · have hx : (0 : ℚ) ≤ fixQ (rtd (KDclipQ |sk| 0 1 - 0)) :=
      fixQ_nonneg (rtd_nonneg (by linarith [(KDclipQ_mem_unit |sk|).1]))
    have hr2 : (0 : ℚ) ≤ fixQ (rtd ((4 : ℚ) - 0)) :=
      fixQ_nonneg (rtd_nonneg (by norm_num))
    have hy : (0 : ℚ) ≤
        fixQ (rtd (fixQ (rtd (KDclipQ |sk| 0 1 - 0)) * fixQ (rtd ((4 : ℚ) - 0)))) :=
      fixQ_nonneg (rtd_nonneg (mul_nonneg hx hr2))
    have hr1 : (0 : ℚ) ≤ fixQ (rtd ((1 : ℚ) - 0)) :=
      fixQ_nonneg (rtd_nonneg (by norm_num))
    have hz : (0 : ℚ) ≤ fixQ (rtd
        (fixQ (rtd (fixQ (rtd (KDclipQ |sk| 0 1 - 0)) * fixQ (rtd ((4 : ℚ) - 0)))) /
          fixQ (rtd ((1 : ℚ) - 0)))) :=
      fixQ_nonneg (rtd_nonneg (div_nonneg hy hr1))
    exact fixQ_nonneg (rtd_nonneg (by linarith [hz]))

/-- Range of the Gaussian transform: whatever the skew argument and the
abstract log/cos/sqrt, a returned sample is in `[0, 1]`, because the
out-of-range branch resamples and the in-range value is fed to
`Math.pow` with a nonnegative exponent. -/
theorem KDGaussianM_mem_unit (lg cs sq : ℚ → ℚ) (pw : ℚ → ℚ → ℚ) (d : ℕ → ℚ)
    (hpw : ∀ b e, 0 ≤ b → b ≤ 1 → 0 ≤ e → 0 ≤ pw b e ∧ pw b e ≤ 1) :
    ∀ (fuel i : ℕ) (sk r : ℚ),
      KDGaussianM lg cs sq pw d fuel i sk = some r → 0 ≤ r ∧ r ≤ 1 := by
  intro fuel
  induction fuel with
  | zero =>
    intro i sk r h
    exact absurd h (by simp [KDGaussianM])
  | succ f ih =>
    intro i sk r h
    rw [KDGaussianM] at h
    rcases hu : findNZ d (f + 1) i with _ | ⟨u, i1⟩
    · simp [hu] at h
    simp only [hu] at h
    rcases hv : findNZ d (f + 1) i1 with _ | ⟨v, i2⟩
    · simp [hv] at h
    simp only [hv] at h
    split at h
    · rcases hrec : KDGaussianM lg cs sq pw d f i2 (scaleSkewQ sk) with _ | num2
      · simp [hrec] at h
      · simp only [hrec, Option.some.injEq] at h
        obtain ⟨hn0, hn1⟩ := ih i2 (scaleSkewQ sk) num2 hrec
        obtain ⟨hp0, hp1⟩ := hpw num2 (scaleSkewQ sk) hn0 hn1 (scaleSkewQ_nonneg sk)
        exact h ▸ ⟨fixQ_nonneg hp0, fixQ_le_one hp0 hp1⟩
    · next hcond =>
      push_neg at hcond
      simp only [Option.some.injEq] at h
      obtain ⟨hp0, hp1⟩ := hpw _ (scaleSkewQ sk) hcond.2 hcond.1 (scaleSkewQ_nonneg sk)
      exact h ▸ ⟨fixQ_nonneg hp0, fixQ_le_one hp0 hp1⟩

set_option maxRecDepth 400000 in
theorem scaleSkewQ_zero : scaleSkewQ 0 = 1 := by norm_num [scaleSkewQ]

/-- C4.  A Gaussian sample is always in `[0, 1]`, and the skew maps to
the exponent exactly as described: skew `0` to `1`, negative skew to
`1 - clip(|skew|)`, positive skew to `clip(|skew|)` rescaled from
`[0, 1]` to `[0, 4]` (all with the floating-point fix applied as the
code does); the `KDNumber` pipeline on these finite values never leaves
the finite numbers.  The abstract `Math.pow` is only assumed to map a
base in `[0, 1]` with a nonnegative exponent into `[0, 1]`. -/
theorem C4_gaussian_range_and_skew
    (lg cs sq : ℚ → ℚ) (pw : ℚ → ℚ → ℚ) (d : ℕ → ℚ)
    (hpw : ∀ b e, 0 ≤ b → b ≤ 1 → 0 ≤ e → 0 ≤ pw b e ∧ pw b e ≤ 1)
    (skew : ℚ) (_hs1 : -1 ≤ skew) (_hs2 : skew ≤ 1)
    (fuel i : ℕ) (r : ℚ)
    (h : KDGaussianM lg cs sq pw d fuel i skew = some r) :
    (0 ≤ r ∧ r ≤ 1)
    ∧ scaleSkewQ 0 = 1
    ∧ (skew < 0 → scaleSkewQ skew = rtd (1 - KDclipQ |skew| 0 1))
    ∧ (0 < skew → scaleSkewQ skew = KDscaleQ (KDclipQ |skew| 0 1) 0 1 0 4)
    ∧ scaleSkew skew = .fin (scaleSkewQ skew) := by
  refine ⟨KDGaussianM_mem_unit lg cs sq pw d hpw fuel i skew r h, scaleSkewQ_zero,
    ?_, ?_, scaleSkew_fin skew⟩
  · intro hneg
    simp [scaleSkewQ, hneg, hneg.ne]
  · intro hpos
    simp [scaleSkewQ, hpos.ne', not_lt.mpr hpos.le]

set_option maxRecDepth 400000 in
/-- C4 (witness): with log, cos and sqrt pinned to the zero function,
`pow` to the base and a constant stream of draws `1/2`, one run returns
`1/2 ∈ [0, 1]`. -/
theorem C4_gaussian_range_witness :
    ((0 : ℚ) ≤ 1 / 2 ∧ (1 / 2 : ℚ) ≤ 1)
    ∧ scaleSkewQ 0 = 1
    ∧ ((0 : ℚ) < 0 → scaleSkewQ 0 = rtd (1 - KDclipQ |(0 : ℚ)| 0 1))
    ∧ ((0 : ℚ) < 0 → scaleSkewQ 0 = KDscaleQ (KDclipQ |(0 : ℚ)| 0 1) 0 1 0 4)
    ∧ scaleSkew 0 = .fin (scaleSkewQ 0) :=
  C4_gaussian_range_and_skew (fun _ => 0) (fun _ => 0) (fun _ => 0) (fun b _ => b)
    (fun _ => 1 / 2) (fun b e hb hb1 _ => ⟨hb, hb1⟩) 0 (by norm_num) (by norm_num)
    1 0 (1 / 2) (by decide)

end KDRoll
